import Mathlib

/-!
# Verification of the jsoncrack node-edit fragment

Shallow embedding of the JSON document store (`src/src/store/useJson.ts`)
and the node modal's helpers (`jsonPathToString`, `buildContentFromNode`,
and the save routine inlined in `handleSave`).

Modelling conventions, fixed once for the whole file:

* JSON numbers are modelled as integers (`Int`).  Documents containing
  fractional or exponent numerals are outside the model; no claim below
  depends on numeric values beyond lengths and array indices.
* Strings are modelled at the code-point level; JavaScript's UTF-16
  view (surrogate pairs in lengths and character indexing) is outside
  the model.
* The cursor walk `cursor[key]` follows full JavaScript property
  semantics: own keys and indices first, then the prototype chain with
  the standard own-property tables of `Object.prototype`,
  `Array.prototype`, `String.prototype`, `Number.prototype`,
  `Boolean.prototype` and `Function.prototype`; `__proto__` is the
  inherited accessor pair.  Object members are kept in JavaScript
  enumeration order (array-index keys ascending first, then string keys
  in insertion order), which is what `JSON.stringify` serializes.
* A small frontier stays outside the model: the static members of the
  built-in constructors (engine-version dependent) and the exotic
  string/array branches of the `ToNumber` length coercion.  A walk
  crossing the frontier has provably left the document tree, so the
  document content is unaffected either way; the store update is
  therefore a *relation*, deterministic inside the frontier and
  admitting the two residual outcomes (state unchanged, or the
  re-serialized unchanged clone committed) past it.
* The code runs as an ES module, hence in strict mode: assigning a
  property of a primitive, a non-writable property, or through a
  setter-less accessor throws `TypeError`.
* `JSON.parse(JSON.stringify(root))` on a freshly parsed tree is a deep
  clone producing an equal tree; in the pure embedding it is the
  identity.  Array extension creates holes, which the model stores as
  `null`: indistinguishable through the committed `JSON.stringify`
  text, which is all the store keeps.
-/
set_option maxHeartbeats 1000000

namespace JsonCrack

/-- A parsed JSON document tree (the result of `JSON.parse`).  Object
fields are kept in insertion order, as JavaScript objects do for string
keys. -/
inductive JValue where
  | null
  | bool (b : Bool)
  | num (n : Int)
  | str (s : String)
  | arr (elems : List JValue)
  | obj (fields : List (String × JValue))

/-- The decimal digit character for `n < 10`. -/
def digitChar (n : Nat) : Char := Char.ofNat (48 + n)

/-- Fuel-driven digit extraction; `natDigits` supplies enough fuel. -/
def natDigitsF : Nat → Nat → List Char
  | 0, _ => []
  | f + 1, n =>
    if n < 10 then [digitChar n]
    else natDigitsF f (n / 10) ++ [digitChar (n % 10)]

/-- Decimal digit string of a natural number, most significant first
(the rendering `String(n)` JavaScript uses for nonnegative integers). -/
def natDigits (n : Nat) : List Char := natDigitsF (n + 1) n

/-- Decimal rendering of an integer, as `String(n)` in JavaScript. -/
def intChars : Int → List Char
  | .ofNat n => natDigits n
  | .negSucc n => '-' :: natDigits (n + 1)

/-- Lowercase hexadecimal digit for `n < 16`, as emitted by
`JSON.stringify` in `\u00XX` escapes. -/
def hexDig (n : Nat) : Char :=
  if n < 10 then digitChar n else Char.ofNat (87 + n)

/-- Escaping of one string character by `JSON.stringify`: `"` and `\`
get a backslash, the five named control characters use their short
escapes, all other control characters become `\u00XX`, and everything
else is emitted verbatim. -/
def escapeChar (c : Char) : List Char :=
  if c = '"' then ['\\', '"']
  else if c = '\\' then ['\\', '\\']
  else if c = '\n' then ['\\', 'n']
  else if c = '\t' then ['\\', 't']
  else if c = '\r' then ['\\', 'r']
  else if c = '\x08' then ['\\', 'b']
  else if c = '\x0c' then ['\\', 'f']
  else if c.toNat < 32 then ['\\', 'u', '0', '0', hexDig (c.toNat / 16), hexDig (c.toNat % 16)]
  else [c]

/-- Escaped body of a JSON string literal. -/
def escBody (cs : List Char) : List Char := (cs.map escapeChar).flatten

/-- The indentation emitted by `JSON.stringify(x, null, 2)` at nesting
depth `d`: `2 * d` spaces. -/
def indentL (d : Nat) : List Char := List.replicate (2 * d) ' '

mutual

/-- Character-level model of `JSON.stringify(v, null, 2)` at nesting
depth `d`: scalars render on one line, non-empty arrays and objects open
a line per entry indented two further spaces, and close on a line at the
current indentation. -/
def sAux : Nat → JValue → List Char
  | _, .null => ['n', 'u', 'l', 'l']
  | _, .bool true => ['t', 'r', 'u', 'e']
  | _, .bool false => ['f', 'a', 'l', 's', 'e']
  | _, .num n => intChars n
  | _, .str s => '"' :: (escBody s.data ++ ['"'])
  | _, .arr [] => ['[', ']']
  | d, .arr (e :: es) =>
      '[' :: '\n' :: (indentL (d + 1) ++ sItems (d + 1) e es ++ '\n' :: (indentL d ++ [']']))
  | _, .obj [] => ['{', '}']
  | d, .obj (p :: ps) =>
      '{' :: '\n' :: (indentL (d + 1) ++ sFields (d + 1) p ps ++ '\n' :: (indentL d ++ ['}']))
termination_by d v => sizeOf v
decreasing_by all_goals (simp_wf <;> omega)

/-- Comma-and-newline separated renderings of the elements of a
non-empty array. -/
def sItems : Nat → JValue → List JValue → List Char
  | d, e, [] => sAux d e
  | d, e, e2 :: es => sAux d e ++ ',' :: '\n' :: (indentL d ++ sItems d e2 es)
termination_by d e es => sizeOf e + sizeOf es
decreasing_by all_goals (simp_wf <;> omega)

/-- One `"key": value` member line of an object. -/
def sField : Nat → String × JValue → List Char
  | d, (k, v) => '"' :: (escBody k.data ++ '"' :: ':' :: ' ' :: sAux d v)
termination_by d p => sizeOf p
decreasing_by all_goals (simp_wf <;> omega)

/-- Comma-and-newline separated renderings of the members of a
non-empty object. -/
def sFields : Nat → String × JValue → List (String × JValue) → List Char
  | d, p, [] => sField d p
  | d, p, p2 :: ps => sField d p ++ ',' :: '\n' :: (indentL d ++ sFields d p2 ps)
termination_by d p ps => sizeOf p + sizeOf ps
decreasing_by all_goals (simp_wf <;> omega)

end

/-- Serialization `JSON.stringify(v, null, 2)`, used by both write
routines of the repository. -/
def stringify2 (v : JValue) : String := String.mk (sAux 0 v)

/-- JSON insignificant whitespace (RFC 8259: space, tab, line feed,
carriage return), as skipped by `JSON.parse`. -/
def jsonWs (c : Char) : Bool := c = ' ' || c = '\t' || c = '\n' || c = '\r'

/-- Drop leading JSON whitespace. -/
def skipWs : List Char → List Char
  | [] => []
  | c :: cs => if jsonWs c then skipWs cs else c :: cs

/-- ASCII decimal digit test. -/
def isDigitCh (c : Char) : Bool := 48 ≤ c.toNat && c.toNat ≤ 57

/-- Split off the longest leading run of decimal digits. -/
def takeDigits : List Char → List Char × List Char
  | [] => ([], [])
  | c :: cs =>
    if isDigitCh c then
      let p := takeDigits cs
      (c :: p.1, p.2)
    else ([], c :: cs)

/-- Value of a digit string, most significant first. -/
def digitsVal (ds : List Char) : Nat := ds.foldl (fun a c => a * 10 + (c.toNat - 48)) 0

/-- After a digit run, `JSON.parse` would continue a number with a
fraction or exponent; numbers with `.`, `e` or `E` are outside the
integer model and rejected. -/
def numSafeHead (cs : List Char) : Bool :=
  match cs with
  | [] => true
  | c :: _ => !(isDigitCh c || c = '.' || c = 'e' || c = 'E')

/-- Parse a JSON integer numeral: an optional leading zero is only the
single digit `0` (RFC 8259 `int`); fraction and exponent parts are
outside the model. -/
def parseDigitsNat (cs : List Char) : Option (Nat × List Char) :=
  let p := takeDigits cs
  if p.1.isEmpty then none
  else if p.1.head? = some '0' && p.1.length != 1 then none
  else if numSafeHead p.2 then some (digitsVal p.1, p.2) else none

/-- Parse a (possibly negative) JSON integer numeral. -/
def parseNum : List Char → Option (Int × List Char)
  | [] => none
  | c :: cs =>
    if c = '-' then (parseDigitsNat cs).map fun p => (-(p.1 : Int), p.2)
    else (parseDigitsNat (c :: cs)).map fun p => ((p.1 : Int), p.2)

/-- The character denoted by a single-character JSON string escape. -/
def unescapeChar (e : Char) : Option Char :=
  if e = '"' then some '"'
  else if e = '\\' then some '\\'
  else if e = '/' then some '/'
  else if e = 'n' then some '\n'
  else if e = 't' then some '\t'
  else if e = 'r' then some '\r'
  else if e = 'b' then some '\x08'
  else if e = 'f' then some '\x0c'
  else none

/-- Value of a hexadecimal digit character. -/
def hexVal (c : Char) : Option Nat :=
  if 48 ≤ c.toNat && c.toNat ≤ 57 then some (c.toNat - 48)
  else if 97 ≤ c.toNat && c.toNat ≤ 102 then some (c.toNat - 87)
  else if 65 ≤ c.toNat && c.toNat ≤ 70 then some (c.toNat - 55)
  else none

/-- Parse the body of a JSON string literal after the opening quote, up
to and including the closing quote.  Raw control characters are
rejected as `JSON.parse` does; `\uXXXX` escapes denoting lone
surrogates are outside the model. -/
def parseStringBody : List Char → Option (List Char × List Char)
  | [] => none
  | c :: rest =>
    if c = '"' then some ([], rest)
    else if c = '\\' then
      match rest with
      | [] => none
      | e :: rest2 =>
        if e = 'u' then
          match rest2 with
          | h1 :: h2 :: h3 :: h4 :: rest3 =>
            match hexVal h1, hexVal h2, hexVal h3, hexVal h4 with
            | some a, some b, some c2, some d =>
              let n := ((a * 16 + b) * 16 + c2) * 16 + d
              if n < 55296 || 57344 ≤ n then
                (parseStringBody rest3).map fun p => (Char.ofNat n :: p.1, p.2)
              else none
            | _, _, _, _ => none
          | _ => none
        else
          match unescapeChar e with
          | some d => (parseStringBody rest2).map fun p => (d :: p.1, p.2)
          | none => none
    else if c.toNat < 32 then none
    else (parseStringBody rest).map fun p => (c :: p.1, p.2)

/-- The string `s` read as a canonical decimal numeral: non-empty, all
digits, no leading zero except for `"0"` itself.  These are exactly the
property names JavaScript treats as numeric. -/
def canonNat (s : String) : Option Nat :=
  if s.data.isEmpty then none
  else if !s.data.all isDigitCh then none
  else if s.data.head? = some '0' && s.data.length != 1 then none
  else some (digitsVal s.data)

/-- An *array index* property key (ECMA-262): a canonical numeral whose
value is below `2^32 - 1`.  These keys index array elements, and
`[[OwnPropertyKeys]]` enumerates them first, in ascending order. -/
def keyIdx (k : String) : Option Nat :=
  (canonNat k).bind fun n => if n < 4294967295 then some n else none

/-- One step of JavaScript's own-property enumeration order: an array
index key never follows a non-index key, and two index keys ascend. -/
def ordStep (k1 k2 : String) : Bool :=
  match keyIdx k1, keyIdx k2 with
  | some i, some j => decide (i < j)
  | none, some _ => false
  | _, _ => true

/-- A key list in JavaScript enumeration order (`[[OwnPropertyKeys]]`):
array-index keys first in ascending order, then the remaining string
keys in insertion order. -/
def fOrd : List String → Bool
  | [] => true
  | [_] => true
  | k1 :: k2 :: ks => ordStep k1 k2 && fOrd (k2 :: ks)

/-- Overwrite the value stored under an existing key, keeping its
position: redefining a property never changes enumeration order. -/
def setKey : List (String × JValue) → String → JValue → List (String × JValue)
  | [], _, _ => []
  | (k0, v0) :: fs, k, v => if k0 = k then (k0, v) :: fs else (k0, v0) :: setKey fs k v

/-- Insert a fresh key at its enumeration position: an array-index key
goes into the ascending index block, any other key is appended. -/
def insNew : List (String × JValue) → String → JValue → List (String × JValue)
  | [], k, v => [(k, v)]
  | (k0, v0) :: fs, k, v =>
    match keyIdx k, keyIdx k0 with
    | some i, some j => if i < j then (k, v) :: (k0, v0) :: fs else (k0, v0) :: insNew fs k v
    | some _, none => (k, v) :: (k0, v0) :: fs
    | none, _ => (k0, v0) :: insNew fs k v

/-- The key-list shadow of `insNew`, used to reason about enumeration
order. -/
def insK : List String → String → List String
  | [], k => [k]
  | k0 :: ks, k =>
    match keyIdx k, keyIdx k0 with
    | some i, some j => if i < j then k :: k0 :: ks else k0 :: insK ks k
    | some _, none => k :: k0 :: ks
    | none, _ => k0 :: insK ks k

/-- `[[DefineOwnProperty]]` on the field list (as `JSON.parse` creates
members): an existing key keeps its position and takes the new value, a
fresh key enters at its enumeration position.  No accessor is
consulted, so `"__proto__"` becomes an ordinary own key here. -/
def objIns (fs : List (String × JValue)) (k : String) (v : JValue) :
    List (String × JValue) :=
  if fs.any fun p => p.1 = k then setKey fs k v else insNew fs k v

/-- Plain assignment `obj[k] = v` on an object with the default
prototype: an existing own key (even `"__proto__"`) is a writable data
property and is overwritten in place; a fresh `"__proto__"` hits the
inherited `Object.prototype.__proto__` accessor, which creates no own
key, so the object is unchanged; any other fresh key is created at its
enumeration position. -/
def objAssign (fs : List (String × JValue)) (k : String) (v : JValue) :
    List (String × JValue) :=
  if fs.any fun p => p.1 = k then setKey fs k v
  else if k = "__proto__" then fs
  else insNew fs k v

/-- Build a JavaScript object from parsed members in order; duplicate
keys keep their first position and last value, as in `JSON.parse`. -/
def buildObj (ps : List (String × JValue)) : List (String × JValue) :=
  ps.foldl (fun acc p => objIns acc p.1 p.2) []

/-- Own-property lookup on an object's field list. -/
def objLookup : List (String × JValue) → String → Option JValue
  | [], _ => none
  | (k0, v0) :: fs, k => if k0 = k then some v0 else objLookup fs k
mutual

/-- Fuel-indexed model of `JSON.parse`'s value grammar: skip
whitespace, then dispatch on the first character.  Fuel decreases at
every mutual call; `parseJson` supplies enough fuel for any input it is
given. -/
def parseValue : Nat → List Char → Option (JValue × List Char)
  | 0, _ => none
  | f + 1, cs =>
    match skipWs cs with
    | [] => none
    | c :: cs' =>
      if c = '{' then
        match skipWs cs' with
        | '}' :: r => some (.obj [], r)
        | r => (parseFields f r).map fun p => (JValue.obj (buildObj p.1), p.2)
      else if c = '[' then
        match skipWs cs' with
        | ']' :: r => some (.arr [], r)
        | r => (parseElems f r).map fun p => (JValue.arr p.1, p.2)
      else if c = '"' then
        (parseStringBody cs').map fun p => (JValue.str (String.mk p.1), p.2)
      else if c = 't' then
        match cs' with
        | 'r' :: 'u' :: 'e' :: r => some (.bool true, r)
        | _ => none
      else if c = 'f' then
        match cs' with
        | 'a' :: 'l' :: 's' :: 'e' :: r => some (.bool false, r)
        | _ => none
      else if c = 'n' then
        match cs' with
        | 'u' :: 'l' :: 'l' :: r => some (.null, r)
        | _ => none
      else
        (parseNum (c :: cs')).map fun p => (JValue.num p.1, p.2)

/-- Elements of a non-empty array: value, then `,` and more elements or
the closing `]`. -/
def parseElems : Nat → List Char → Option (List JValue × List Char)
  | 0, _ => none
  | f + 1, cs =>
    (parseValue f cs).bind fun p =>
      match skipWs p.2 with
      | ',' :: r2 => (parseElems f r2).map fun q => (p.1 :: q.1, q.2)
      | ']' :: r2 => some ([p.1], r2)
      | _ => none

/-- Members of a non-empty object: `"key" : value`, then `,` and more
members or the closing `}`. -/
def parseFields : Nat → List Char → Option (List (String × JValue) × List Char)
  | 0, _ => none
  | f + 1, cs =>
    match skipWs cs with
    | '"' :: r =>
      (parseStringBody r).bind fun pk =>
        match skipWs pk.2 with
        | ':' :: r2 =>
          (parseValue f r2).bind fun pv =>
            match skipWs pv.2 with
            | ',' :: r4 => (parseFields f r4).map fun q => ((String.mk pk.1, pv.1) :: q.1, q.2)
            | '}' :: r4 => some ([(String.mk pk.1, pv.1)], r4)
            | _ => none
        | _ => none
    | _ => none

end

/-- Model of `JSON.parse(s)`: parse one value and require only
whitespace to remain. -/
def parseJson (s : String) : Option JValue :=
  match parseValue (s.length + 1) s.data with
  | some p => if (skipWs p.2).isEmpty then some p.1 else none
  | none => none

/-- No two keys of any object (recursively) coincide.  Every value that
`JSON.parse` can produce satisfies this: JavaScript objects cannot hold
two properties with the same name. -/
def nodupKeys : List (String × JValue) → Bool
  | [] => true
  | (k, _) :: fs => !(fs.any fun p => p.1 = k) && nodupKeys fs

mutual

/-- Well-formedness of a tree as a JavaScript value: object keys are
pairwise distinct and listed in enumeration order at every level.
Every value living in a JavaScript runtime satisfies both: an object
cannot hold duplicate keys, and its own keys always enumerate with the
array-index block first. -/
def WFb : JValue → Bool
  | .null => true
  | .bool _ => true
  | .num _ => true
  | .str _ => true
  | .arr es => WFbList es
  | .obj fs => nodupKeys fs && (fOrd (fs.map Prod.fst) && WFbFields fs)
termination_by v => sizeOf v
decreasing_by all_goals (simp_wf <;> omega)

/-- Predicate `WFb` on every element. -/
def WFbList : List JValue → Bool
  | [] => true
  | e :: es => WFb e && WFbList es
termination_by es => sizeOf es
decreasing_by all_goals (simp_wf <;> omega)

/-- Predicate `WFb` on every member value. -/
def WFbFields : List (String × JValue) → Bool
  | [] => true
  | (_, v) :: fs => WFb v && WFbFields fs
termination_by fs => sizeOf fs
decreasing_by all_goals (simp_wf <;> omega)

end

mutual

/-- Structural size used as a fuel bound for the parser. -/
def sz : JValue → Nat
  | .null => 1
  | .bool _ => 1
  | .num _ => 1
  | .str _ => 1
  | .arr es => 1 + szList es
  | .obj fs => 1 + szFields fs
termination_by v => sizeOf v
decreasing_by all_goals (simp_wf <;> omega)

/-- Size of an element list. -/
def szList : List JValue → Nat
  | [] => 1
  | e :: es => 1 + sz e + szList es
termination_by es => sizeOf es
decreasing_by all_goals (simp_wf <;> omega)

/-- Size of a member list. -/
def szFields : List (String × JValue) → Nat
  | [] => 1
  | (_, v) :: fs => 1 + sz v + szFields fs
termination_by fs => sizeOf fs
decreasing_by all_goals (simp_wf <;> omega)

end
/-- One segment of a node's JSON path, as in the TypeScript type
`(string | number)[]`.  Numeric segments are integers; fractional
numbers are outside the model. -/
inductive Seg where
  | str (s : String)
  | num (n : Int)
deriving DecidableEq, Repr

/-- The property name a segment denotes on a JavaScript object:
numbers are coerced to their decimal string. -/
def segKey : Seg → String
  | .str s => s
  | .num n => String.mk (intChars n)

/-- The array index a segment denotes, if any: its property name must
be a canonical numeral below the `2^32 - 1` array-index bound.  A
negative number, a non-canonical numeral and anything at or above the
bound name only an expando property. -/
def segArrIndex (sg : Seg) : Option Nat := keyIdx (segKey sg)

/-- Structural own-property lookup on the document tree: own keys of
objects and in-range indices of arrays.  This is the part of a property
read that sees the document itself; `jsRead` below adds everything the
prototype chain contributes. -/
def ownGet : JValue → Seg → Option JValue
  | .obj fs, sg => objLookup fs (segKey sg)
  | .arr es, sg => (segArrIndex sg).bind fun i => es[i]?
  | _, _ => none

/-- Assignment `es[i] = v` at an array index, observed through
`JSON.stringify`: an in-range index is overwritten; a larger index
extends the array, and `JSON.stringify` renders the skipped holes as
`null`. -/
def setIdx (es : List JValue) (i : Nat) (v : JValue) : List JValue :=
  if i < es.length then es.set i v
  else es ++ List.replicate (i - es.length) .null ++ [v]

/-- Read the document value at a path, following own properties from
the root. -/
def resolve : JValue → List Seg → Option JValue
  | v, [] => some v
  | v, k :: rest => (ownGet v k).bind fun c => resolve c rest

/-- Is the value an object or an array? -/
def isContainer : JValue → Bool
  | .arr _ => true
  | .obj _ => true
  | _ => false

/-- The final segments on which a write stores the value into the
document: on an object, any key other than a fresh `"__proto__"`
(modelled conservatively as any key other than `"__proto__"`); on an
array, a segment naming an array index. -/
def finalOk : JValue → Seg → Bool
  | .obj _, sg => !(segKey sg == "__proto__")
  | .arr _, sg => (segArrIndex sg).isSome
  | _, _ => false

/-- The own method names of `Object.prototype` other than
`constructor` (handled separately, it is the `Object` constructor) and
the `__proto__` accessor. -/
def objProtoFns : List String :=
  ["hasOwnProperty", "isPrototypeOf", "propertyIsEnumerable", "toLocaleString",
   "toString", "valueOf", "__defineGetter__", "__defineSetter__",
   "__lookupGetter__", "__lookupSetter__"]

/-- The own method names of `Function.prototype` other than
`constructor` and the throwing `caller` and `arguments` accessors. -/
def funProtoFns : List String := ["apply", "bind", "call", "toString"]

/-- The own method names of `Array.prototype` other than
`constructor` (its `length` is handled separately). -/
def arrProtoFns : List String :=
  ["at", "concat", "copyWithin", "entries", "every", "fill", "filter", "find",
   "findIndex", "findLast", "findLastIndex", "flat", "flatMap", "forEach",
   "includes", "indexOf", "join", "keys", "lastIndexOf", "map", "pop", "push",
   "reduce", "reduceRight", "reverse", "shift", "slice", "some", "sort",
   "splice", "toLocaleString", "toReversed", "toSorted", "toSpliced",
   "toString", "unshift", "values", "with"]

/-- The own method names of `String.prototype` (including the legacy
HTML helpers) other than `constructor`. -/
def strProtoFns : List String :=
  ["anchor", "at", "big", "blink", "bold", "charAt", "charCodeAt", "codePointAt",
   "concat", "endsWith", "fixed", "fontcolor", "fontsize", "includes", "indexOf",
   "isWellFormed", "italics", "lastIndexOf", "link", "localeCompare", "match",
   "matchAll", "normalize", "padEnd", "padStart", "repeat", "replace",
   "replaceAll", "search", "slice", "small", "split", "startsWith", "strike",
   "sub", "substr", "substring", "sup", "toLocaleLowerCase", "toLocaleUpperCase",
   "toLowerCase", "toString", "toUpperCase", "toWellFormed", "trim", "trimEnd",
   "trimStart", "valueOf"]

/-- The own method names of `Number.prototype` other than `constructor`. -/
def numProtoFns : List String :=
  ["toExponential", "toFixed", "toLocaleString", "toPrecision", "toString", "valueOf"]

/-- The own method names of `Boolean.prototype` other than `constructor`. -/
def boolProtoFns : List String := ["toString", "valueOf"]

/-- A value the cursor can sit on after leaving the document tree. -/
inductive OffV where
  /-- A standard built-in method function, identified by its name. -/
  | builtinFn (nm : String)
  /-- A built-in constructor (`Object`, `Array`, ...).  Its static
  surface is engine-version dependent and beyond the modelled frontier:
  the walk refuses to decide past it. -/
  | ctor (nm : String)
  /-- `Function.prototype` (itself a function). -/
  | funProtoO
  /-- `Object.prototype`. -/
  | objProtoO
  /-- `Array.prototype` (an array of length 0 with writable length). -/
  | arrProtoO
  /-- `String.prototype` (a String exotic object wrapping `""`). -/
  | strProtoO
  /-- `Number.prototype`. -/
  | numProtoO
  /-- `Boolean.prototype`. -/
  | boolProtoO
  /-- A primitive number whose value the model does not fix (a
  function's arity): no outcome of a walk depends on a number's value. -/
  | anum
deriving DecidableEq, Repr

/-- The result of one property read. -/
inductive ReadRes where
  /-- A defined value that is itself JSON-representable (an own member,
  an element, a length, a character, a name). -/
  | val (v : JValue)
  /-- A defined non-document value (an inherited function or a
  prototype object). -/
  | off (o : OffV)
  /-- The read produced `undefined`. -/
  | undefined
  /-- The read itself threw a `TypeError`. -/
  | raise

/-- The part of a read served by the prototype chain once own
properties missed: the `__proto__` accessor yields the prototype
object, `constructor` the constructor, a known method name its
function; everything else is `undefined`. -/
def protoMiss (own : List String) (cn : String) (pr : OffV) (k : String) : ReadRes :=
  if k = "__proto__" then .off pr
  else if k = "constructor" then .off (.ctor cn)
  else if own.contains k || objProtoFns.contains k then .off (.builtinFn k)
  else .undefined

/-- The full property read `cursor[k]` on a document value: own
properties of objects and arrays (and the index/length own properties
of strings and boxed primitives), then the prototype chain.  Reading a
property of `null` throws. -/
def jsRead : JValue → String → ReadRes
  | .null, _ => .raise
  | .bool _, k => protoMiss boolProtoFns "Boolean" .boolProtoO k
  | .num _, k => protoMiss numProtoFns "Number" .numProtoO k
  | .str s, k =>
    if k = "length" then .val (.num (s.data.length : Int))
    else
      match keyIdx k with
      | some i =>
        match s.data[i]? with
        | some c => .val (.str (String.mk [c]))
        | none => protoMiss strProtoFns "String" .strProtoO k
      | none => protoMiss strProtoFns "String" .strProtoO k
  | .arr es, k =>
    if k = "length" then .val (.num (es.length : Int))
    else
      match keyIdx k with
      | some i =>
        match es[i]? with
        | some u => .val u
        | none => protoMiss arrProtoFns "Array" .arrProtoO k
      | none => protoMiss arrProtoFns "Array" .arrProtoO k
  | .obj fs, k =>
    match objLookup fs k with
    | some u => .val u
    | none => protoMiss [] "Object" .objProtoO k

/-- Property reads on a cursor that has left the document: functions
expose `name`, `length` and the `Function.prototype` chain (`caller`
and `arguments` are throwing accessors); each prototype object exposes
its own methods and its own chain; `Object.prototype.__proto__` is
`null`.  Reads on a constructor are never consulted: the walk stops at
the frontier first. -/
def offRead : OffV → String → ReadRes
  | .builtinFn nm, k =>
    if k = "name" then .val (.str nm)
    else if k = "length" then .off .anum
    else if k = "caller" || k = "arguments" then .raise
    else if k = "__proto__" then .off .funProtoO
    else if k = "constructor" then .off (.ctor "Function")
    else if funProtoFns.contains k || objProtoFns.contains k then .off (.builtinFn k)
    else .undefined
  | .funProtoO, k =>
    if k = "name" then .val (.str "")
    else if k = "length" then .off .anum
    else if k = "caller" || k = "arguments" then .raise
    else if k = "__proto__" then .off .objProtoO
    else if k = "constructor" then .off (.ctor "Function")
    else if funProtoFns.contains k || objProtoFns.contains k then .off (.builtinFn k)
    else .undefined
  | .ctor _, _ => .undefined
  | .objProtoO, k =>
    if k = "__proto__" then .val .null
    else if k = "constructor" then .off (.ctor "Object")
    else if objProtoFns.contains k then .off (.builtinFn k)
    else .undefined
  | .arrProtoO, k =>
    if k = "length" then .val (.num 0)
    else protoMiss arrProtoFns "Array" .objProtoO k
  | .strProtoO, k =>
    if k = "length" then .val (.num 0)
    else protoMiss strProtoFns "String" .objProtoO k
  | .numProtoO, k => protoMiss numProtoFns "Number" .objProtoO k
  | .boolProtoO, k => protoMiss boolProtoFns "Boolean" .objProtoO k
  | .anum, k => protoMiss numProtoFns "Number" .numProtoO k

/-- The outcome of the clone-walk-assign core shared by the store and
the modal. -/
inductive UpdOut where
  /-- The walk stayed in the document and the assignment landed:
  serialize and commit the mutated tree. -/
  | commit (t : JValue)
  /-- The assignment succeeded (or was swallowed by an accessor) without
  touching the document: the unchanged clone is serialized and
  committed. -/
  | same
  /-- An intermediate read gave `undefined` (early return) or something
  threw (`try`/`catch`): nothing is committed. -/
  | dead
  /-- The walk crossed the modelled frontier: the model refuses to
  decide between `same` and `dead`.  Either way the document content is
  untouched. -/
  | esc

/-- Map a function over a committed tree. -/
def UpdOut.lift : UpdOut → (JValue → JValue) → UpdOut
  | .commit t, f => .commit (f t)
  | .same, _ => .same
  | .dead, _ => .dead
  | .esc, _ => .esc

/-- Forget a committed tree: used where the walked-into value is a
derived primitive (a length, a character, a name) that is not part of
the document, so a mutation of it cannot reach the document. -/
def UpdOut.toSame : UpdOut → UpdOut
  | .commit _ => .same
  | .same => .same
  | .dead => .dead
  | .esc => .esc

/-- The whitespace characters removed by JavaScript's
`String.prototype.trim` and by `ToNumber` (Unicode `White_Space` plus
the BOM). -/
def jsTrimWs (c : Char) : Bool :=
  c.toNat = 9 || c.toNat = 10 || c.toNat = 11 || c.toNat = 12 || c.toNat = 13 ||
  c.toNat = 32 || c.toNat = 160 || c.toNat = 5760 ||
  (8192 ≤ c.toNat && c.toNat ≤ 8202) ||
  c.toNat = 8232 || c.toNat = 8233 || c.toNat = 8239 || c.toNat = 8287 ||
  c.toNat = 12288 || c.toNat = 65279

/-- Test `!s.trim()` in JavaScript: the string is empty or all whitespace. -/
def strBlank (s : String) : Bool := s.data.all jsTrimWs

/-- The modelled fragment of the array-length coercion
`ToUint32(ToNumber(v))`: `some (some n)` resizes to `n`, `some none` is
a `RangeError`, `none` is beyond the frontier (non-decimal numeric
strings, single-element arrays). -/
def toLen : JValue → Option (Option Nat)
  | .num n => some (if 0 ≤ n ∧ n < 4294967296 then some n.toNat else none)
  | .null => some (some 0)
  | .bool b => some (some (if b then 1 else 0))
  | .str s =>
    let t := ((s.data.dropWhile jsTrimWs).reverse.dropWhile jsTrimWs).reverse
    if t.isEmpty then some (some 0)
    else if t.all isDigitCh then
      if digitsVal t < 4294967296 then some (some (digitsVal t)) else some none
    else none
  | .obj _ => some none
  | .arr [] => some (some 0)
  | .arr [_] => none
  | .arr _ => some none

/-- Assignment `arr.length = v`: a valid length truncates or extends
the array (`JSON.stringify` renders the new holes as `null`), an
invalid one throws a `RangeError`. -/
def lenAssign (es : List JValue) (nv : JValue) : UpdOut :=
  match toLen nv with
  | some (some n) => .commit (.arr (es.take n ++ List.replicate (n - es.length) .null))
  | some none => .dead
  | none => .esc

/-- The final assignment `cursor[lastKey] = newValue` on a document
value, in strict mode.  On an object a fresh `"__proto__"` is swallowed
by the inherited accessor (no own key, document unchanged); any other
key is written.  On an array an index segment writes the slot, a
`length` segment resizes, and any other segment becomes an expando
that `JSON.stringify` ignores.  On a primitive the assignment throws a
`TypeError`, caught by the caller. -/
def treeAssign : JValue → String → JValue → UpdOut
  | .obj fs, k, nv =>
    if fs.any fun p => p.1 = k then .commit (.obj (setKey fs k nv))
    else if k = "__proto__" then .same
    else .commit (.obj (insNew fs k nv))
  | .arr es, k, nv =>
    match keyIdx k with
    | some i => .commit (.arr (setIdx es i nv))
    | none => if k = "length" then lenAssign es nv else .same
  | _, _, _ => .dead

/-- The final assignment on a cursor outside the document.  It never
touches the document: it succeeds (`same`), throws on a non-writable or
accessor-guarded property (`dead`), or crosses the frontier (`esc`).
`Object.prototype` has an immutable prototype, so assigning a container
to its `__proto__` throws; `String.prototype` wraps `""` with a
non-writable `length`; `Array.prototype` has a real writable `length`. -/
def offAssign : OffV → String → JValue → UpdOut
  | .builtinFn _, k, _ =>
    if k = "name" || k = "length" || k = "caller" || k = "arguments" then .dead else .same
  | .funProtoO, k, _ =>
    if k = "name" || k = "length" || k = "caller" || k = "arguments" then .dead else .same
  | .ctor _, _, _ => .esc
  | .anum, _, _ => .dead
  | .objProtoO, k, nv =>
    if k = "__proto__" && isContainer nv then .dead else .same
  | .arrProtoO, k, nv =>
    if k = "length" then
      match toLen nv with
      | some (some _) => .same
      | some none => .dead
      | none => .esc
    else .same
  | .strProtoO, k, _ => if k = "length" then .dead else .same
  | .numProtoO, _, _ => .same
  | .boolProtoO, _, _ => .same

/-- The cursor of the walk: a value of the document tree, or a value
the prototype chain led out of it. -/
inductive Cur where
  | tree (v : JValue)
  | host (o : OffV)

/-- The cursor walk of `updateValueAtPath` and of the modal's
`handleSave`, structurally recursive on the path.  Intermediate
segments read `cursor[key]` (returning early on `undefined`, and the
catch swallowing a throwing read); the final segment assigns.  A walk
into an own object member or array element rebuilds the document on
the way out (the in-place mutation of the clone becomes path-copying
reconstruction); a walk into a derived primitive or past the prototype
chain can never alter the document, and a walk into a constructor's
static surface leaves the model (`esc`). -/
def updTreeC : Cur → List Seg → JValue → UpdOut
  | _, [], _ => .dead
  | .tree cur, [sg], nv => treeAssign cur (segKey sg) nv
  | .host o, [sg], nv => offAssign o (segKey sg) nv
  | .tree (.obj fs), sg :: sg2 :: rest, nv =>
    match objLookup fs (segKey sg) with
    | some u => (updTreeC (.tree u) (sg2 :: rest) nv).lift fun u2 => .obj (setKey fs (segKey sg) u2)
    | none =>
      match jsRead (.obj fs) (segKey sg) with
      | .val u => (updTreeC (.tree u) (sg2 :: rest) nv).toSame
      | .off o => updTreeC (.host o) (sg2 :: rest) nv
      | .undefined => .dead
      | .raise => .dead
  | .tree (.arr es), sg :: sg2 :: rest, nv =>
    match keyIdx (segKey sg) with
    | some i =>
      match es[i]? with
      | some u => (updTreeC (.tree u) (sg2 :: rest) nv).lift fun u2 => .arr (es.set i u2)
      | none =>
        match jsRead (.arr es) (segKey sg) with
        | .val u => (updTreeC (.tree u) (sg2 :: rest) nv).toSame
        | .off o => updTreeC (.host o) (sg2 :: rest) nv
        | .undefined => .dead
        | .raise => .dead
    | none =>
      match jsRead (.arr es) (segKey sg) with
      | .val u => (updTreeC (.tree u) (sg2 :: rest) nv).toSame
      | .off o => updTreeC (.host o) (sg2 :: rest) nv
      | .undefined => .dead
      | .raise => .dead
  | .tree cur, sg :: sg2 :: rest, nv =>
    match jsRead cur (segKey sg) with
    | .val u => (updTreeC (.tree u) (sg2 :: rest) nv).toSame
    | .off o => updTreeC (.host o) (sg2 :: rest) nv
    | .undefined => .dead
    | .raise => .dead
  | .host (.ctor _), _ :: _ :: _, _ => .esc
  | .host o, sg :: sg2 :: rest, nv =>
    match offRead o (segKey sg) with
    | .val u => (updTreeC (.tree u) (sg2 :: rest) nv).toSame
    | .off o2 => updTreeC (.host o2) (sg2 :: rest) nv
    | .undefined => .dead
    | .raise => .dead

/-- The walk from the document root. -/
def updTree (root : JValue) (path : List Seg) (nv : JValue) : UpdOut :=
  updTreeC (.tree root) path nv
/-- The state of the `useJson` zustand store.  The derived graph is
kept abstract: `setGraph` is modelled by an arbitrary derivation
function `derive` from the JSON text, since `useGraph` is outside the
given sources. -/
structure StoreState (G : Type) where
  json : String
  loading : Bool
  graph : G
deriving DecidableEq

/-- Action `setJson`: store the new text, clear `loading`, and keep the graph
in sync by re-deriving it from the text. -/
def setJson {G : Type} (derive : String → G) (s : String) (_st : StoreState G) : StoreState G :=
  { json := s, loading := false, graph := derive s }

/-- The store's `updateValueAtPath(path, newValue)` as a step relation
on store states: return unchanged on an empty path or blank stored
text; otherwise parse the text, deep-clone (identity in the pure
model), walk, assign, re-stringify with indent 2 and commit through
`setJson`.  A parse failure, an `undefined` intermediate read or a
throwing step leaves the state untouched; past the modelled frontier
(`esc`) the relation admits both remaining outcomes — in either the
committed text is the re-serialized unchanged clone or nothing, never
new document content. -/
def UpdateStep {G : Type} (derive : String → G) (st : StoreState G)
    (path : List Seg) (v : JValue) (st' : StoreState G) : Prop :=
  if path.isEmpty || strBlank st.json then st' = st
  else
    match parseJson st.json with
    | none => st' = st
    | some root =>
      match updTree root path v with
      | .commit t => st' = setJson derive (stringify2 t) st
      | .same => st' = setJson derive (stringify2 root) st
      | .dead => st' = st
      | .esc => st' = st ∨ st' = setJson derive (stringify2 root) st

/-- The document-level outcome of the store's write: the committed new
JSON text, or `none` when the state is left unchanged. -/
def StoreSave (current : String) (path : List Seg) (v : JValue)
    (out : Option String) : Prop :=
  if path.isEmpty || strBlank current then out = none
  else
    match parseJson current with
    | none => out = none
    | some root =>
      match updTree root path v with
      | .commit t => out = some (stringify2 t)
      | .same => out = some (stringify2 root)
      | .dead => out = none
      | .esc => out = none ∨ out = some (stringify2 root)

/-- The set-value-at-JSON-path routine inlined in the modal's
`handleSave`: an empty path returns without saving; a blank current
text is replaced by `{}` (the `JSON.parse(current)` / `{}` branch);
then the same parse / clone / walk / assign / re-stringify steps run,
any thrown error (parse failure, invalid path) leaving the document
unsaved. -/
def ModalSave (current : String) (path : List Seg) (v : JValue)
    (out : Option String) : Prop :=
  if path.isEmpty then out = none
  else
    match (if strBlank current then some (JValue.obj []) else parseJson current) with
    | none => out = none
    | some root =>
      match updTree root path v with
      | .commit t => out = some (stringify2 t)
      | .same => out = some (stringify2 root)
      | .dead => out = none
      | .esc => out = none ∨ out = some (stringify2 root)

/-- The write algorithm exactly as the specification's sentence for C4
words it (a *spec-modelled* definition, for comparison with the code):
walk every segment but the last through the document's own properties,
failing silently if an intermediate key is absent, then assign the new
value at the final segment so that it is present in the result. -/
def specAssign : JValue → Seg → JValue → Option JValue
  | .obj fs, sg, v => some (.obj (objIns fs (segKey sg) v))
  | .arr es, sg, v =>
    match segArrIndex sg with
    | some i => some (.arr (setIdx es i v))
    | none => some (.arr es)
  | _, _, _ => none

/-- The claim-worded walk over `specAssign`; see `specAssign`. -/
def specSetAtPath : JValue → List Seg → JValue → Option JValue
  | _, [], _ => none
  | cur, [sg], v => specAssign cur sg v
  | cur, sg :: sg2 :: rest, v =>
    match ownGet cur sg with
    | none => none
    | some child => (specSetAtPath child (sg2 :: rest) v).bind fun c2 => specAssign cur sg c2

/-- Rendering `` typeof seg === "number" ? `${seg}` : `"${seg}"` ``: numbers
render bare, strings wrapped in double quotes. -/
def renderSeg : Seg → String
  | .num n => String.mk (intChars n)
  | .str s => "\"" ++ s ++ "\""

/-- The modal's `jsonPathToString`: `$` for a missing or empty path,
otherwise `$[` ++ segments joined by `][` ++ `]`. -/
def jsonPathToString (path : Option (List Seg)) : String :=
  match path with
  | none => "$"
  | some segs =>
    if segs.isEmpty then "$"
    else "$[" ++ String.intercalate "][" (segs.map renderSeg) ++ "]"

theorem digitChar_toNat : ∀ n < 10, (digitChar n).toNat = 48 + n := by decide

theorem isDigitCh_digitChar : ∀ n < 10, isDigitCh (digitChar n) = true := by decide

theorem digitChar_ne_zero : ∀ n < 10, 0 < n → digitChar n ≠ '0' := by decide

theorem isDigitCh_spec {c : Char} (h : isDigitCh c = true) : 48 ≤ c.toNat ∧ c.toNat ≤ 57 := by
  simpa [isDigitCh] using h

theorem natDigitsF_all {f n : Nat} : ∀ c ∈ natDigitsF f n, isDigitCh c = true := by
  induction f, n using natDigitsF.induct with
  | case1 n => intro c hc; simp [natDigitsF] at hc
  | case2 f n h =>
    intro c hc
    simp only [natDigitsF, if_pos h, List.mem_singleton] at hc
    subst hc; exact isDigitCh_digitChar n h
  | case3 f n h ih =>
    intro c hc
    simp only [natDigitsF, if_neg h, List.mem_append, List.mem_singleton] at hc
    rcases hc with h1 | h1
    · exact ih c h1
    · subst h1; exact isDigitCh_digitChar _ (Nat.mod_lt _ (by omega))

theorem natDigits_all {n : Nat} : ∀ c ∈ natDigits n, isDigitCh c = true := natDigitsF_all

theorem digitsVal_append (a b : List Char) :
    digitsVal (a ++ b) = b.foldl (fun x c => x * 10 + (c.toNat - 48)) (digitsVal a) := by
  simp [digitsVal, List.foldl_append]

theorem natDigitsF_val {f n : Nat} (h : n < f) : digitsVal (natDigitsF f n) = n := by
  induction f, n using natDigitsF.induct with
  | case1 n => omega
  | case2 f n hlt =>
    have hd := digitChar_toNat n hlt
    simp [natDigitsF, hlt, digitsVal]
    omega
  | case3 f n hlt ih =>
    rw [natDigitsF, if_neg hlt, digitsVal_append, ih (by omega)]
    have hd := digitChar_toNat (n % 10) (Nat.mod_lt _ (by omega))
    simp [List.foldl]
    omega

theorem natDigits_val {n : Nat} : digitsVal (natDigits n) = n := natDigitsF_val (by omega)

theorem natDigitsF_head {f n : Nat} (h : n < f) :
    ∃ c t, natDigitsF f n = c :: t ∧ isDigitCh c = true ∧ (0 < n → c ≠ '0') := by
  induction f, n using natDigitsF.induct with
  | case1 n => omega
  | case2 f n hlt =>
    exact ⟨digitChar n, [], by simp [natDigitsF, hlt], isDigitCh_digitChar n hlt,
      fun hp => digitChar_ne_zero n hlt hp⟩
  | case3 f n hlt ih =>
    obtain ⟨c, t, heq, hdig, hz⟩ := ih (by omega)
    exact ⟨c, t ++ [digitChar (n % 10)], by rw [natDigitsF, if_neg hlt, heq]; rfl,
      hdig, fun _ => hz (by omega)⟩

theorem natDigits_head {n : Nat} :
    ∃ c t, natDigits n = c :: t ∧ isDigitCh c = true ∧ (0 < n → c ≠ '0') :=
  natDigitsF_head (by omega)

theorem numSafeHead_not_digit {r : List Char} (h : numSafeHead r = true) :
    ∀ c, r.head? = some c → isDigitCh c = false := by
  cases r with
  | nil => intro c hc; simp at hc
  | cons a t =>
    intro c hc
    simp only [List.head?_cons, Option.some.injEq] at hc
    subst hc
    simp [numSafeHead] at h
    exact h.1.1.1

theorem takeDigits_append {ds r : List Char} (hds : ∀ c ∈ ds, isDigitCh c = true)
    (hr : ∀ c, r.head? = some c → isDigitCh c = false) :
    takeDigits (ds ++ r) = (ds, r) := by
  induction ds with
  | nil =>
    cases r with
    | nil => rfl
    | cons c t => simp [takeDigits, hr c rfl]
  | cons c t ih =>
    have hc : isDigitCh c = true := hds c (List.mem_cons_self c t)
    have ih' := ih (fun x hx => hds x (List.mem_cons_of_mem c hx))
    simp [takeDigits, hc, ih']

theorem natDigits_zero : natDigits 0 = ['0'] := rfl

theorem parseDigitsNat_natDigits {n : Nat} {r : List Char} (hr : numSafeHead r = true) :
    parseDigitsNat (natDigits n ++ r) = some (n, r) := by
  obtain ⟨c, t, heq, hdig, hz⟩ := natDigits_head (n := n)
  unfold parseDigitsNat
  rw [takeDigits_append (fun x hx => natDigits_all x hx) (numSafeHead_not_digit hr)]
  by_cases hn : n = 0
  · subst hn
    simp [natDigits_zero, hr, digitsVal]
  · have hne : c ≠ '0' := hz (by omega)
    rw [heq]
    simp only [List.isEmpty_cons, Bool.false_eq_true, if_false, List.head?_cons]
    have : (some c = some '0') = False := by simp [hne]
    simp only [Option.some.injEq, this]
    simp [hr, ← heq, natDigits_val]

theorem isDigitCh_ne_minus {c : Char} (h : isDigitCh c = true) : c ≠ '-' := by
  intro he; subst he; simp [isDigitCh] at h

theorem parseNum_intChars {i : Int} {r : List Char} (hr : numSafeHead r = true) :
    parseNum (intChars i ++ r) = some (i, r) := by
  cases i with
  | ofNat n =>
    obtain ⟨c, t, heq, hdig, _⟩ := natDigits_head (n := n)
    have hc : c ≠ '-' := isDigitCh_ne_minus hdig
    show parseNum (natDigits n ++ r) = some ((n : Int), r)
    rw [heq, List.cons_append]
    simp only [parseNum, if_neg hc]
    rw [← List.cons_append, ← heq, parseDigitsNat_natDigits hr]
    rfl
  | negSucc n =>
    show parseNum (('-' :: natDigits (n + 1)) ++ r) = some (Int.negSucc n, r)
    simp only [List.cons_append, parseNum, if_pos rfl]
    rw [parseDigitsNat_natDigits hr]
    simp [Int.negSucc_eq]

/-! ## Whitespace lemmas -/

theorem skipWs_not_ws {c : Char} {l : List Char} (h : jsonWs c = false) :
    skipWs (c :: l) = c :: l := by
  simp [skipWs, h]

theorem skipWs_ws_pre {pre : List Char} (l : List Char)
    (h : ∀ c ∈ pre, jsonWs c = true) : skipWs (pre ++ l) = skipWs l := by
  induction pre with
  | nil => rfl
  | cons c t ih =>
    have hc := h c (List.mem_cons_self c t)
    simp only [List.cons_append, skipWs, hc, if_pos]
    exact ih fun x hx => h x (List.mem_cons_of_mem c hx)

theorem indentL_ws {d : Nat} : ∀ c ∈ indentL d, jsonWs c = true := by
  intro c hc
  have hc2 : c = ' ' := List.eq_of_mem_replicate (by simpa [indentL] using hc)
  subst hc2; rfl

/-! ## String-literal round trip -/

theorem hexVal_hexDig : ∀ x < 16, hexVal (hexDig x) = some x := by decide

theorem escBody_nil : escBody [] = [] := rfl

theorem escBody_cons (c : Char) (cs : List Char) :
    escBody (c :: cs) = escapeChar c ++ escBody cs := by
  simp [escBody]

theorem parseStringBody_escBody (cs rest : List Char) :
    parseStringBody (escBody cs ++ '"' :: rest) = some (cs, rest) := by
  induction cs with
  | nil =>
    rw [escBody_nil, List.nil_append, parseStringBody.eq_def]
    simp
  | cons c cs ih =>
    rw [escBody_cons, List.append_assoc]
    by_cases h1 : c = '"'
    · subst h1
      rw [escapeChar]
      simp only [if_pos rfl, List.cons_append, List.nil_append]
      rw [parseStringBody.eq_def]
      simp [unescapeChar, ih]
    · by_cases h2 : c = '\\'
      · subst h2
        rw [show escapeChar '\\' = ['\\', '\\'] from rfl]
        simp only [List.cons_append, List.nil_append]
        rw [parseStringBody.eq_def]
        simp [unescapeChar, ih]
      · by_cases h3 : c = '\n'
        · subst h3
          rw [show escapeChar '\n' = ['\\', 'n'] from rfl]
          simp only [List.cons_append, List.nil_append]
          rw [parseStringBody.eq_def]
          simp [unescapeChar, ih]
        · by_cases h4 : c = '\t'
          · subst h4
            rw [show escapeChar '\t' = ['\\', 't'] from rfl]
            simp only [List.cons_append, List.nil_append]
            rw [parseStringBody.eq_def]
            simp [unescapeChar, ih]
          · by_cases h5 : c = '\r'
            · subst h5
              rw [show escapeChar '\r' = ['\\', 'r'] from rfl]
              simp only [List.cons_append, List.nil_append]
              rw [parseStringBody.eq_def]
              simp [unescapeChar, ih]
            · by_cases h6 : c = '\x08'
              · subst h6
                rw [show escapeChar '\x08' = ['\\', 'b'] from rfl]
                simp only [List.cons_append, List.nil_append]
                rw [parseStringBody.eq_def]
                simp [unescapeChar, ih]
              · by_cases h7 : c = '\x0c'
                · subst h7
                  rw [show escapeChar '\x0c' = ['\\', 'f'] from rfl]
                  simp only [List.cons_append, List.nil_append]
                  rw [parseStringBody.eq_def]
                  simp [unescapeChar, ih]
                · by_cases h8 : c.toNat < 32
                  · rw [escapeChar, if_neg h1, if_neg h2, if_neg h3, if_neg h4, if_neg h5,
                      if_neg h6, if_neg h7, if_pos h8]
                    have h0 : hexVal '0' = some 0 := rfl
                    have ha : hexVal (hexDig (c.toNat / 16)) = some (c.toNat / 16) :=
                      hexVal_hexDig _ (by omega)
                    have hb : hexVal (hexDig (c.toNat % 16)) = some (c.toNat % 16) :=
                      hexVal_hexDig _ (by omega)
                    simp only [List.cons_append]
                    rw [parseStringBody.eq_def]
                    simp only [h0, ha, hb]
                    norm_num only
                    have hn : (0 * 16 + c.toNat / 16) * 16 + c.toNat % 16 = c.toNat := by omega
                    rw [hn]
                    have hlt : c.toNat < 55296 := by omega
                    simp [hlt, ih, Char.ofNat_toNat]
                  · rw [escapeChar, if_neg h1, if_neg h2, if_neg h3, if_neg h4, if_neg h5,
                      if_neg h6, if_neg h7, if_neg h8]
                    simp only [List.cons_append, List.nil_append]
                    rw [parseStringBody.eq_def]
                    simp [h1, h2, (show ¬c.toNat < 32 by omega), ih]

/-! ## Size bounds: the serialized form is at least as long as `sz` -/

theorem intChars_length_pos (i : Int) : 0 < (intChars i).length := by
  cases i with
  | ofNat n =>
    obtain ⟨c, t, heq, -, -⟩ := natDigits_head (n := n)
    simp [intChars, heq]
  | negSucc n => simp [intChars]

theorem sz_le_sAux_len (d : Nat) (v : JValue) : sz v ≤ (sAux d v).length := by
  refine sAux.induct (fun d v => sz v ≤ (sAux d v).length)
    (fun d p ps => szFields (p :: ps) ≤ (sFields d p ps).length + 2)
    (fun d p => sz p.2 + 4 ≤ (sField d p).length)
    (fun d e es => szList (e :: es) ≤ (sItems d e es).length + 2)
    ?_ ?_ ?_ ?_ ?_ ?_ ?_ ?_ ?_ ?_ ?_ ?_ ?_ ?_ d v
  · intro x; simp [sz, sAux]
  · intro x; simp [sz, sAux]
  · intro x; simp [sz, sAux]
  · intro x n; simpa [sz, sAux] using intChars_length_pos n
  · intro x s; simp [sz, sAux]
  · intro x; simp [sz, sAux, szList]
  · intro d e es ih
    simp only [sz, sAux, szList, List.length_cons, List.length_append, indentL,
      List.length_replicate] at *
    omega
  · intro x; simp [sz, sAux, szFields]
  · intro d p ps ih
    simp only [sz, sAux, szFields, List.length_cons, List.length_append, indentL,
      List.length_replicate] at *
    omega
  · intro d p ih
    obtain ⟨k, v⟩ := p
    simp only [sFields, szFields] at *
    omega
  · intro d p p2 ps ih1 ih2
    obtain ⟨k, v⟩ := p
    simp only [sFields, szFields, List.length_cons, List.length_append, indentL,
      List.length_replicate] at *
    omega
  · intro d k v ih
    simp only [sField, sz, List.length_cons, List.length_append] at *
    omega
  · intro d e ih
    simp only [sItems, szList] at *
    omega
  · intro d e e2 es ih1 ih2
    simp only [sItems, szList, List.length_cons, List.length_append, indentL,
      List.length_replicate] at *
    omega

/-! ## Round-trip support lemmas -/

theorem strMk_data (s : String) : String.mk s.data = s := rfl

theorem not_ws_of_digit {c : Char} (h : isDigitCh c = true) : jsonWs c = false := by
  cases hjw : jsonWs c
  · rfl
  · simp [jsonWs] at hjw
    rcases hjw with ((rfl | rfl) | rfl) | rfl <;> simp [isDigitCh] at h

theorem digit_ne {c : Char} (h : isDigitCh c = true) :
    c ≠ '{' ∧ c ≠ '[' ∧ c ≠ '"' ∧ c ≠ 't' ∧ c ≠ 'f' ∧ c ≠ 'n' ∧ c ≠ ']' ∧ c ≠ '}' := by
  refine ⟨?_, ?_, ?_, ?_, ?_, ?_, ?_, ?_⟩ <;> (rintro rfl; simp [isDigitCh] at h)

theorem numStart_facts {c : Char} (h : isDigitCh c = true ∨ c = '-') :
    jsonWs c = false ∧ c ≠ '{' ∧ c ≠ '[' ∧ c ≠ '"' ∧ c ≠ 't' ∧ c ≠ 'f' ∧ c ≠ 'n' := by
  rcases h with h | rfl
  · obtain ⟨a, b, g, e, i, j, -, -⟩ := digit_ne h
    exact ⟨not_ws_of_digit h, a, b, g, e, i, j⟩
  · refine ⟨rfl, ?_, ?_, ?_, ?_, ?_, ?_⟩ <;> decide

theorem intChars_head (i : Int) :
    ∃ c t, intChars i = c :: t ∧ (isDigitCh c = true ∨ c = '-') := by
  cases i with
  | ofNat n =>
    obtain ⟨c, t, heq, hd, -⟩ := natDigits_head (n := n)
    exact ⟨c, t, heq, .inl hd⟩
  | negSucc n => exact ⟨'-', natDigits (n + 1), rfl, .inr rfl⟩

theorem sAux_head (d : Nat) (v : JValue) :
    ∃ c t, sAux d v = c :: t ∧ jsonWs c = false ∧ c ≠ ']' ∧ c ≠ '}' := by
  cases v with
  | null => exact ⟨'n', ['u', 'l', 'l'], by simp [sAux], by decide, by decide, by decide⟩
  | bool b =>
    cases b
    · exact ⟨'f', ['a', 'l', 's', 'e'], by simp [sAux], by decide, by decide, by decide⟩
    · exact ⟨'t', ['r', 'u', 'e'], by simp [sAux], by decide, by decide, by decide⟩
  | num n =>
    obtain ⟨c, t, heq, hd⟩ := intChars_head n
    refine ⟨c, t, by simp [sAux, heq], ?_, ?_, ?_⟩
    · exact (numStart_facts hd).1
    · rcases hd with hd | rfl
      · exact (digit_ne hd).2.2.2.2.2.2.1
      · decide
    · rcases hd with hd | rfl
      · exact (digit_ne hd).2.2.2.2.2.2.2
      · decide
  | str s => exact ⟨'"', escBody s.data ++ ['"'], by simp [sAux], by decide, by decide, by decide⟩
  | arr es =>
    cases es with
    | nil => exact ⟨'[', [']'], by simp [sAux], by decide, by decide, by decide⟩
    | cons e es =>
      exact ⟨'[', '\n' :: (indentL (d + 1) ++ (sItems (d + 1) e es ++ '\n' :: (indentL d ++ [']']))),
        by simp [sAux], by decide, by decide, by decide⟩
  | obj fs =>
    cases fs with
    | nil => exact ⟨'{', ['}'], by simp [sAux], by decide, by decide, by decide⟩
    | cons p ps =>
      exact ⟨'{', '\n' :: (indentL (d + 1) ++ (sFields (d + 1) p ps ++ '\n' :: (indentL d ++ ['}']))),
        by simp [sAux], by decide, by decide, by decide⟩

theorem sItems_head (d : Nat) (e : JValue) (es : List JValue) :
    ∃ c t, sItems d e es = c :: t ∧ jsonWs c = false ∧ c ≠ ']' ∧ c ≠ '}' := by
  obtain ⟨c, t, heq, h1, h2, h3⟩ := sAux_head d e
  cases es with
  | nil => exact ⟨c, t, by simp [sItems, heq], h1, h2, h3⟩
  | cons e2 es =>
    exact ⟨c, t ++ ',' :: '\n' :: (indentL d ++ sItems d e2 es),
      by simp [sItems, heq], h1, h2, h3⟩

theorem sFields_head (d : Nat) (p : String × JValue) (ps : List (String × JValue)) :
    ∃ t, sFields d p ps = '"' :: t := by
  obtain ⟨k, v⟩ := p
  cases ps with
  | nil => exact ⟨escBody k.data ++ '"' :: ':' :: ' ' :: sAux d v, by simp [sFields, sField]⟩
  | cons p2 ps =>
    exact ⟨(escBody k.data ++ '"' :: ':' :: ' ' :: sAux d v) ++
      ',' :: '\n' :: (indentL d ++ sFields d p2 ps), by simp [sFields, sField]⟩

theorem numSafe_of_ws {c : Char} (t : List Char) (h : jsonWs c = true) :
    numSafeHead (c :: t) = true := by
  simp [jsonWs] at h
  rcases h with ((rfl | rfl) | rfl) | rfl <;> rfl

theorem numSafe_ws_append {pre l : List Char}
    (hws : ∀ c ∈ pre, jsonWs c = true) (hl : numSafeHead l = true) :
    numSafeHead (pre ++ l) = true := by
  cases pre with
  | nil => simpa using hl
  | cons c t => exact numSafe_of_ws _ (hws c (List.mem_cons_self c t))

theorem skipWs_close {pre l : List Char} {c : Char} (hws : ∀ x ∈ pre, jsonWs x = true)
    (hc : jsonWs c = false) : skipWs (pre ++ c :: l) = c :: l := by
  rw [skipWs_ws_pre _ hws, skipWs_not_ws hc]

/-! ## Object building -/


/-! ## Canonical numerals are unique -/

theorem natDigitsF_fuel {n : Nat} : ∀ f f', n < f → n < f' → natDigitsF f n = natDigitsF f' n := by
  induction n using Nat.strong_induction_on with
  | _ n ih =>
    intro f f' hf hf'
    obtain ⟨f1, rfl⟩ : ∃ k, f = k + 1 := ⟨f - 1, by omega⟩
    obtain ⟨f2, rfl⟩ : ∃ k, f' = k + 1 := ⟨f' - 1, by omega⟩
    by_cases h : n < 10
    · simp [natDigitsF, h]
    · simp only [natDigitsF, if_neg h]
      rw [ih (n / 10) (by omega) f1 f2 (by omega) (by omega)]

theorem digitChar_digit {d : Char} (h : isDigitCh d = true) : digitChar (d.toNat - 48) = d := by
  obtain ⟨h1, h2⟩ := isDigitCh_spec h
  unfold digitChar
  rw [show 48 + (d.toNat - 48) = d.toNat by omega]
  exact Char.ofNat_toNat d

theorem digitsVal_snoc (a : List Char) (d : Char) :
    digitsVal (a ++ [d]) = digitsVal a * 10 + (d.toNat - 48) := by
  rw [digitsVal_append]
  rfl

theorem foldl_digits_ge (t : List Char) : ∀ a, a ≤ t.foldl (fun x c => x * 10 + (c.toNat - 48)) a := by
  induction t with
  | nil => intro a; exact Nat.le_refl a
  | cons c t ih =>
    intro a
    calc a ≤ a * 10 + (c.toNat - 48) := by omega
    _ ≤ t.foldl (fun x c => x * 10 + (c.toNat - 48)) (a * 10 + (c.toNat - 48)) := ih _

theorem digitsVal_head_pos {c : Char} {t : List Char} (hd : isDigitCh c = true)
    (hne : c ≠ '0') : 0 < digitsVal (c :: t) := by
  obtain ⟨h1, h2⟩ := isDigitCh_spec hd
  have hc : c.toNat ≠ 48 := fun h => hne (by
    have := congrArg Char.ofNat h
    rwa [Char.ofNat_toNat] at this)
  have hstart : 1 ≤ 0 * 10 + (c.toNat - 48) := by omega
  have := foldl_digits_ge t (0 * 10 + (c.toNat - 48))
  show 0 < (c :: t).foldl (fun x c => x * 10 + (c.toNat - 48)) 0
  rw [List.foldl_cons]
  omega

theorem digits_canonical : ∀ ds : List Char, ds ≠ [] → (∀ c ∈ ds, isDigitCh c = true) →
    (ds.head? = some '0' → ds.length = 1) → ds = natDigits (digitsVal ds) := by
  intro ds
  induction ds using List.reverseRecOn with
  | nil => intro h; exact absurd rfl h
  | append_singleton ds' d ih =>
    intro hne hall hz
    have hd : isDigitCh d = true := hall d (by simp)
    obtain ⟨hd1, hd2⟩ := isDigitCh_spec hd
    rcases ds' with - | ⟨c0, t0⟩
    · have hv : digitsVal [d] = d.toNat - 48 := by simp [digitsVal]
      show [d] = natDigits (digitsVal [d])
      rw [hv, show natDigits (d.toNat - 48) = [digitChar (d.toNat - 48)] by
        unfold natDigits natDigitsF
        rw [if_pos (by omega)], digitChar_digit hd]
    · have hall' : ∀ c ∈ c0 :: t0, isDigitCh c = true := fun c hc => hall c (by simp [List.mem_cons] at hc ⊢; tauto)
      have hz' : c0 ≠ '0' := by
        intro h0
        subst h0
        have hlen := hz (by simp)
        simp at hlen
      have ihe : c0 :: t0 = natDigits (digitsVal (c0 :: t0)) := by
        refine ih (by simp) hall' ?_
        intro hh
        simp only [List.head?_cons, Option.some.injEq] at hh
        exact absurd hh hz'
      have hmpos : 0 < digitsVal (c0 :: t0) :=
        digitsVal_head_pos (hall' c0 (by simp)) hz'
      have hsnoc : digitsVal ((c0 :: t0) ++ [d]) =
          digitsVal (c0 :: t0) * 10 + (d.toNat - 48) := digitsVal_snoc _ _
      rw [hsnoc]
      have hn10 : ¬ (digitsVal (c0 :: t0) * 10 + (d.toNat - 48) < 10) := by omega
      rw [show natDigits (digitsVal (c0 :: t0) * 10 + (d.toNat - 48)) =
          natDigitsF (digitsVal (c0 :: t0) * 10 + (d.toNat - 48))
              ((digitsVal (c0 :: t0) * 10 + (d.toNat - 48)) / 10) ++
            [digitChar ((digitsVal (c0 :: t0) * 10 + (d.toNat - 48)) % 10)] by
        unfold natDigits
        rw [natDigitsF, if_neg hn10]]
      have hdiv : (digitsVal (c0 :: t0) * 10 + (d.toNat - 48)) / 10 = digitsVal (c0 :: t0) := by
        omega
      have hmod : (digitsVal (c0 :: t0) * 10 + (d.toNat - 48)) % 10 = d.toNat - 48 := by
        omega
      rw [hdiv, hmod, digitChar_digit hd,
        natDigitsF_fuel (digitsVal (c0 :: t0) * 10 + (d.toNat - 48))
          (digitsVal (c0 :: t0) + 1) (by omega) (by omega)]
      rw [show natDigitsF (digitsVal (c0 :: t0) + 1) (digitsVal (c0 :: t0)) =
        natDigits (digitsVal (c0 :: t0)) from rfl, ← ihe]

theorem canonNat_data {s : String} {n : Nat} (h : canonNat s = some n) :
    s.data = natDigits n := by
  unfold canonNat at h
  split_ifs at h with h1 h2 h3
  simp only [Option.some.injEq] at h
  subst h
  refine digits_canonical s.data ?_ ?_ ?_
  · simpa [List.isEmpty_iff] using h1
  · simpa [List.all_eq_true] using h2
  · intro hh
    simp only [Bool.and_eq_true, bne, Bool.not_eq_true', decide_eq_false_iff_not] at h3
    by_contra hlen
    exact h3 ⟨by simp [hh], by simpa using hlen⟩

theorem canonNat_inj {s1 s2 : String} {n : Nat} (h1 : canonNat s1 = some n)
    (h2 : canonNat s2 = some n) : s1 = s2 := by
  have hd : s1.data = s2.data := by rw [canonNat_data h1, canonNat_data h2]
  have := congrArg String.mk hd
  rwa [strMk_data, strMk_data] at this

theorem keyIdx_inj {s1 s2 : String} {n : Nat} (h1 : keyIdx s1 = some n)
    (h2 : keyIdx s2 = some n) : s1 = s2 := by
  unfold keyIdx at h1 h2
  obtain ⟨m1, hc1, hi1⟩ := Option.bind_eq_some.mp h1
  obtain ⟨m2, hc2, hi2⟩ := Option.bind_eq_some.mp h2
  split_ifs at hi1 hi2
  simp only [Option.some.injEq] at hi1 hi2
  subst hi1
  subst hi2
  exact canonNat_inj hc1 hc2

/-! ## Enumeration order -/

theorem fOrd_cons {k : String} {ks : List String} (h : fOrd (k :: ks) = true) :
    fOrd ks = true := by
  cases ks with
  | nil => rfl
  | cons k2 t =>
    have h2 : (ordStep k k2 && fOrd (k2 :: t)) = true := h
    simp only [Bool.and_eq_true] at h2
    exact h2.2

theorem fOrd_head {k k2 : String} {ks : List String} (h : fOrd (k :: k2 :: ks) = true) :
    ordStep k k2 = true := by
  have h2 : (ordStep k k2 && fOrd (k2 :: ks)) = true := h
  simp only [Bool.and_eq_true] at h2
  exact h2.1

theorem fOrd_front : ∀ xs ys : List String, fOrd (xs ++ ys) = true → fOrd xs = true := by
  intro xs
  induction xs with
  | nil => intro ys h; rfl
  | cons x xs ih =>
    intro ys h
    cases xs with
    | nil => rfl
    | cons x2 t =>
      have ha : ordStep x x2 = true := fOrd_head h
      have hb : fOrd ((x2 :: t) ++ ys) = true := fOrd_cons h
      have hc := ih ys hb
      show (ordStep x x2 && fOrd (x2 :: t)) = true
      simp [ha, hc]

theorem fOrd_snoc_int : ∀ (ks : List String) (k : String) (i : Nat),
    fOrd (ks ++ [k]) = true → keyIdx k = some i →
    ∀ x ∈ ks, ∃ j, keyIdx x = some j ∧ j < i := by
  intro ks
  induction ks with
  | nil => intro k i h hk x hx; simp at hx
  | cons x0 ks ih =>
    intro k i h hk x hx
    have htail : fOrd (ks ++ [k]) = true := fOrd_cons h
    rcases List.mem_cons.mp hx with rfl | hx'
    · cases ks with
      | nil =>
        have hstep : ordStep x k = true := fOrd_head h
        unfold ordStep at hstep
        rw [hk] at hstep
        rcases hx0 : keyIdx x with - | j <;> rw [hx0] at hstep
        · simp at hstep
        · simp only [decide_eq_true_eq] at hstep
          exact ⟨j, rfl, hstep⟩
      | cons x1 ks' =>
        have hstep : ordStep x x1 = true := fOrd_head h
        obtain ⟨j1, hj1, hj1i⟩ := ih k i htail hk x1 (by simp)
        unfold ordStep at hstep
        rw [hj1] at hstep
        rcases hx0 : keyIdx x with - | j <;> rw [hx0] at hstep
        · simp at hstep
        · simp only [decide_eq_true_eq] at hstep
          exact ⟨j, rfl, by omega⟩
    · exact ih k i htail hk x hx'

/-! ## Updating and inserting members -/

theorem setKey_keys (fs : List (String × JValue)) (k : String) (v : JValue) :
    (setKey fs k v).map Prod.fst = fs.map Prod.fst := by
  induction fs with
  | nil => rfl
  | cons q fs ih =>
    obtain ⟨k0, v0⟩ := q
    by_cases he : k0 = k
    · subst he
      simp [setKey]
    · simp [setKey, he, ih]

theorem objLookup_setKey_self {fs : List (String × JValue)} {k : String}
    (h : (fs.any fun p => p.1 = k) = true) (v : JValue) :
    objLookup (setKey fs k v) k = some v := by
  induction fs with
  | nil => simp at h
  | cons q fs ih =>
    obtain ⟨k0, v0⟩ := q
    by_cases he : k0 = k
    · subst he
      simp [setKey, objLookup]
    · simp only [setKey, if_neg he, objLookup, he, if_false]
      refine ih ?_
      simp only [List.any_cons, Bool.or_eq_true, decide_eq_true_eq] at h
      rcases h with h | h
      · exact absurd h he
      · exact h

theorem objLookup_setKey_other {fs : List (String × JValue)} {k k2 : String}
    (hne : k2 ≠ k) (v : JValue) :
    objLookup (setKey fs k v) k2 = objLookup fs k2 := by
  induction fs with
  | nil => rfl
  | cons q fs ih =>
    obtain ⟨k0, v0⟩ := q
    by_cases he : k0 = k
    · subst he
      simp [setKey, objLookup, Ne.symm hne]
    · simp [setKey, objLookup, he, ih]

theorem WFbFields_setKey {fs : List (String × JValue)} {k : String} {v : JValue}
    (h : WFbFields fs = true) (hv : WFb v = true) :
    WFbFields (setKey fs k v) = true := by
  induction fs with
  | nil => simp [setKey, WFbFields]
  | cons q fs ih =>
    obtain ⟨k0, v0⟩ := q
    simp only [WFbFields, Bool.and_eq_true] at h
    by_cases he : k0 = k
    · subst he
      simp only [setKey, if_pos rfl]
      simp [WFbFields, hv, h.2]
    · simp only [setKey, if_neg he]
      simp [WFbFields, h.1, ih h.2]

theorem nodupKeys_setKey {fs : List (String × JValue)} {k : String} (v : JValue)
    (h : nodupKeys fs = true) : nodupKeys (setKey fs k v) = true := by
  induction fs with
  | nil => simp [setKey, nodupKeys]
  | cons q fs ih =>
    obtain ⟨k0, v0⟩ := q
    simp only [nodupKeys, Bool.and_eq_true, Bool.not_eq_true', List.any_eq_false,
      decide_eq_true_eq] at h
    by_cases he : k0 = k
    · subst he
      simp only [setKey, if_pos rfl, nodupKeys, Bool.and_eq_true, Bool.not_eq_true',
        List.any_eq_false, decide_eq_true_eq]
      exact ⟨h.1, h.2⟩
    · simp only [setKey, if_neg he, nodupKeys, Bool.and_eq_true, Bool.not_eq_true',
        List.any_eq_false, decide_eq_true_eq]
      refine ⟨?_, ih h.2⟩
      intro p hp
      have hkeys := setKey_keys fs k v
      have : p.1 ∈ (setKey fs k v).map Prod.fst := List.mem_map_of_mem _ hp
      rw [hkeys] at this
      obtain ⟨q, hq, hq1⟩ := List.mem_map.mp this
      rw [← hq1]
      exact h.1 q hq

theorem mem_insNew {fs : List (String × JValue)} {k : String} {v : JValue} {p} :
    p ∈ insNew fs k v → p ∈ fs ∨ p = (k, v) := by
  induction fs with
  | nil =>
    intro hp
    simp only [insNew, List.mem_singleton] at hp
    exact .inr hp
  | cons q fs ih =>
    obtain ⟨k0, v0⟩ := q
    intro hp
    unfold insNew at hp
    rcases h1 : keyIdx k with - | i <;> rw [h1] at hp
    · rcases List.mem_cons.mp hp with rfl | hp2
      · exact .inl (List.mem_cons_self _ _)
      · rcases ih hp2 with hm | hm
        · exact .inl (List.mem_cons_of_mem _ hm)
        · exact .inr hm
    · rcases h2 : keyIdx k0 with - | j <;> rw [h2] at hp
      · rcases List.mem_cons.mp hp with rfl | hp2
        · exact .inr rfl
        · exact .inl hp2
      · simp only [] at hp
        split_ifs at hp
        · rcases List.mem_cons.mp hp with rfl | hp2
          · exact .inr rfl
          · exact .inl hp2
        · rcases List.mem_cons.mp hp with rfl | hp2
          · exact .inl (List.mem_cons_self _ _)
          · rcases ih hp2 with hm | hm
            · exact .inl (List.mem_cons_of_mem _ hm)
            · exact .inr hm

theorem nodupKeys_insNew {fs : List (String × JValue)} {k : String} {v : JValue}
    (hfresh : ∀ p ∈ fs, p.1 ≠ k) (h : nodupKeys fs = true) :
    nodupKeys (insNew fs k v) = true := by
  induction fs with
  | nil => simp [insNew, nodupKeys]
  | cons q fs ih =>
    obtain ⟨k0, v0⟩ := q
    simp only [nodupKeys, Bool.and_eq_true, Bool.not_eq_true', List.any_eq_false,
      decide_eq_true_eq] at h
    have hfresh' : ∀ p ∈ fs, p.1 ≠ k := fun p hp => hfresh p (List.mem_cons_of_mem _ hp)
    have hk0 : k0 ≠ k := hfresh (k0, v0) (List.mem_cons_self _ _)
    have hgoal2 : nodupKeys ((k, v) :: (k0, v0) :: fs) = true := by
      simp only [nodupKeys, Bool.and_eq_true, Bool.not_eq_true', List.any_eq_false,
        decide_eq_true_eq]
      refine ⟨?_, h.1, h.2⟩
      intro p hp
      rcases List.mem_cons.mp hp with rfl | hp2
      · exact hk0
      · exact fun hc => hfresh' p hp2 hc
    have hgoalr : nodupKeys ((k0, v0) :: insNew fs k v) = true := by
      simp only [nodupKeys, Bool.and_eq_true, Bool.not_eq_true', List.any_eq_false,
        decide_eq_true_eq]
      refine ⟨?_, ih hfresh' h.2⟩
      intro p hp
      rcases mem_insNew hp with hm | rfl
      · exact h.1 p hm
      · exact fun hc => hk0 hc.symm
    unfold insNew
    rcases h1 : keyIdx k with - | i
    · exact hgoalr
    · rcases h2 : keyIdx k0 with - | j
      · exact hgoal2
      · simp only []
        split_ifs
        · exact hgoal2
        · exact hgoalr

theorem WFbFields_insNew {fs : List (String × JValue)} {k : String} {v : JValue}
    (h : WFbFields fs = true) (hv : WFb v = true) :
    WFbFields (insNew fs k v) = true := by
  induction fs with
  | nil => simp [insNew, WFbFields, hv]
  | cons q fs ih =>
    obtain ⟨k0, v0⟩ := q
    simp only [WFbFields, Bool.and_eq_true] at h
    have hcons : WFbFields ((k, v) :: (k0, v0) :: fs) = true := by
      simp [WFbFields, hv, h.1, h.2]
    have hrec : WFbFields ((k0, v0) :: insNew fs k v) = true := by
      simp [WFbFields, h.1, ih h.2]
    unfold insNew
    rcases keyIdx k with - | i
    · exact hrec
    · rcases keyIdx k0 with - | j
      · exact hcons
      · simp only []
        split_ifs
        · exact hcons
        · exact hrec

theorem objLookup_insNew_self {fs : List (String × JValue)} {k : String}
    (hfresh : ∀ p ∈ fs, p.1 ≠ k) (v : JValue) :
    objLookup (insNew fs k v) k = some v := by
  induction fs with
  | nil => simp [insNew, objLookup]
  | cons q fs ih =>
    obtain ⟨k0, v0⟩ := q
    have hk0 : k0 ≠ k := hfresh (k0, v0) (List.mem_cons_self _ _)
    have hfresh' : ∀ p ∈ fs, p.1 ≠ k := fun p hp => hfresh p (List.mem_cons_of_mem _ hp)
    have hcons : objLookup ((k, v) :: (k0, v0) :: fs) k = some v := by
      simp [objLookup]
    have hrec : objLookup ((k0, v0) :: insNew fs k v) k = some v := by
      simp only [objLookup, if_neg hk0]
      exact ih hfresh'
    unfold insNew
    rcases keyIdx k with - | i
    · exact hrec
    · rcases keyIdx k0 with - | j
      · exact hcons
      · simp only []
        split_ifs
        · exact hcons
        · exact hrec

theorem insNew_keys (fs : List (String × JValue)) (k : String) (v : JValue) :
    (insNew fs k v).map Prod.fst = insK (fs.map Prod.fst) k := by
  induction fs with
  | nil => rfl
  | cons q fs ih =>
    obtain ⟨k0, v0⟩ := q
    show (insNew ((k0, v0) :: fs) k v).map Prod.fst = insK (k0 :: fs.map Prod.fst) k
    unfold insNew insK
    rcases keyIdx k with - | i
    · simp [ih]
    · rcases keyIdx k0 with - | j
      · simp
      · simp only []
        split_ifs
        · simp
        · simp [ih]

theorem insK_head (ks : List String) (k : String) :
    (insK ks k).head? = some k ∨ (insK ks k).head? = ks.head? := by
  cases ks with
  | nil => exact .inl rfl
  | cons k0 ks =>
    unfold insK
    rcases keyIdx k with - | i
    · exact .inr rfl
    · rcases keyIdx k0 with - | j
      · exact .inl rfl
      · simp only []
        split_ifs
        · exact .inl rfl
        · exact .inr rfl

theorem fOrd_insK : ∀ (ks : List String) (k : String), k ∉ ks → fOrd ks = true →
    fOrd (insK ks k) = true := by
  intro ks
  induction ks with
  | nil => intro k _ _; rfl
  | cons k0 ks ih =>
    intro k hfresh h
    have hk0 : k0 ≠ k := fun hc => hfresh (hc ▸ List.mem_cons_self _ _)
    have hfresh' : k ∉ ks := fun hc => hfresh (List.mem_cons_of_mem _ hc)
    have htail : fOrd ks = true := fOrd_cons h
    have hrec : fOrd (insK ks k) = true := ih k hfresh' htail
    have hconsOf : ∀ x, (insK ks k).head? = some x → ordStep k0 x = true →
        fOrd (k0 :: insK ks k) = true := by
      intro x hx hstep
      cases hik : insK ks k with
      | nil => rfl
      | cons y t =>
        rw [hik] at hx
        simp only [List.head?_cons, Option.some.injEq] at hx
        rw [← hx] at hstep
        rw [hik] at hrec
        show (ordStep k0 y && fOrd (y :: t)) = true
        simp [hstep, hrec]
    unfold insK
    rcases h1 : keyIdx k with - | i
    · -- string key: recurse; head of insK is k or old head
      refine ?_
      rcases insK_head ks k with hh | hh
      · refine hconsOf k hh ?_
        unfold ordStep
        rw [h1]
        rcases keyIdx k0 with - | j <;> simp
      · cases ks with
        | nil =>
          show fOrd (k0 :: insK [] k) = true
          show fOrd [k0, k] = true
          show (ordStep k0 k && fOrd [k]) = true
          unfold ordStep
          rw [h1]
          rcases keyIdx k0 with - | j <;> simp [fOrd]
        | cons k1 ks' =>
          refine hconsOf k1 ?_ (fOrd_head h)
          simpa using hh
    · rcases h2 : keyIdx k0 with - | j
      · -- index key before a string key
        show fOrd (k :: k0 :: ks) = true
        show (ordStep k k0 && fOrd (k0 :: ks)) = true
        unfold ordStep
        rw [h1, h2]
        simp [h]
      · simp only []
        split_ifs with hij
        · show fOrd (k :: k0 :: ks) = true
          show (ordStep k k0 && fOrd (k0 :: ks)) = true
          unfold ordStep
          rw [h1, h2]
          simp [hij, h]
        · -- k goes past k0: j ≤ i and j ≠ i (distinct canonical keys)
          have hji : j < i := by
            rcases Nat.lt_or_ge j i with hlt | hge
            · exact hlt
            · have : i = j := by omega
              subst this
              exact absurd (keyIdx_inj h1 h2) (fun hc => hk0 hc.symm)
          rcases insK_head ks k with hh | hh
          · refine hconsOf k hh ?_
            unfold ordStep
            rw [h1, h2]
            simp [hji]
          · cases ks with
            | nil =>
              show fOrd (k0 :: insK [] k) = true
              show fOrd [k0, k] = true
              show (ordStep k0 k && fOrd [k]) = true
              unfold ordStep
              rw [h1, h2]
              simp [fOrd, hji]
            | cons k1 ks' =>
              refine hconsOf k1 ?_ (fOrd_head h)
              simpa using hh

theorem fOrd_insNew {fs : List (String × JValue)} {k : String} {v : JValue}
    (hfresh : ∀ p ∈ fs, p.1 ≠ k) (h : fOrd (fs.map Prod.fst) = true) :
    fOrd ((insNew fs k v).map Prod.fst) = true := by
  rw [insNew_keys]
  refine fOrd_insK _ k ?_ h
  intro hc
  obtain ⟨p, hp, hp1⟩ := List.mem_map.mp hc
  exact hfresh p hp hp1

theorem insNew_append : ∀ (fs : List (String × JValue)) (k : String) (v : JValue),
    (∀ p ∈ fs, p.1 ≠ k) → fOrd (fs.map Prod.fst ++ [k]) = true →
    insNew fs k v = fs ++ [(k, v)] := by
  intro fs
  induction fs with
  | nil => intro k v _ _; rfl
  | cons q fs ih =>
    obtain ⟨k0, v0⟩ := q
    intro k v hfresh hord
    have hfresh' : ∀ p ∈ fs, p.1 ≠ k := fun p hp => hfresh p (List.mem_cons_of_mem _ hp)
    have hordt : fOrd (fs.map Prod.fst ++ [k]) = true := fOrd_cons hord
    show insNew ((k0, v0) :: fs) k v = (k0, v0) :: (fs ++ [(k, v)])
    unfold insNew
    rcases h1 : keyIdx k with - | i
    · rw [ih k v hfresh' hordt]
    · obtain ⟨j, hj, hji⟩ := fOrd_snoc_int (k0 :: fs.map Prod.fst) k i hord h1 k0 (by simp)
      rw [hj]
      simp only []
      rw [if_neg (show ¬ i < j by omega)]
      rw [ih k v hfresh' hordt]

theorem objIns_append {fs : List (String × JValue)} {k : String} {v : JValue}
    (hfresh : ∀ p ∈ fs, p.1 ≠ k) (hord : fOrd (fs.map Prod.fst ++ [k]) = true) :
    objIns fs k v = fs ++ [(k, v)] := by
  unfold objIns
  rw [if_neg ?_]
  · exact insNew_append fs k v hfresh hord
  · simp only [List.any_eq_true, decide_eq_true_eq, not_exists, not_and]
    intro p hp
    exact hfresh p hp

theorem objLookup_objIns_self {fs : List (String × JValue)} {k : String} (v : JValue) :
    objLookup (objIns fs k v) k = some v := by
  unfold objIns
  by_cases hmem : (fs.any fun p => p.1 = k) = true
  · rw [if_pos hmem]
    exact objLookup_setKey_self hmem v
  · rw [if_neg hmem]
    refine objLookup_insNew_self ?_ v
    intro p hp
    simp only [List.any_eq_true, decide_eq_true_eq, not_exists, not_and] at hmem
    exact hmem p hp

theorem buildObj_go (fs : List (String × JValue)) :
    ∀ acc, nodupKeys fs = true →
      fOrd (acc.map Prod.fst ++ fs.map Prod.fst) = true →
      (∀ p ∈ fs, ∀ q ∈ acc, q.1 ≠ p.1) →
      fs.foldl (fun a p => objIns a p.1 p.2) acc = acc ++ fs := by
  induction fs with
  | nil => intro acc _ _ _; simp
  | cons p fs ih =>
    intro acc hnd hord hdisj
    obtain ⟨k, v⟩ := p
    simp only [nodupKeys, Bool.and_eq_true, Bool.not_eq_true'] at hnd
    obtain ⟨hk, hnd'⟩ := hnd
    simp only [List.foldl_cons]
    have hord1 : fOrd (acc.map Prod.fst ++ [k]) = true := by
      refine fOrd_front _ (fs.map Prod.fst) ?_
      simpa using hord
    rw [objIns_append (fun q hq => hdisj (k, v) (List.mem_cons_self _ _) q hq) hord1]
    have hdisj2 : ∀ p ∈ fs, ∀ q ∈ acc ++ [(k, v)], q.1 ≠ p.1 := by
      intro p hp q hq
      rcases List.mem_append.mp hq with hq | hq
      · exact hdisj p (List.mem_cons_of_mem _ hp) q hq
      · simp only [List.mem_singleton] at hq
        subst hq
        simp only [List.any_eq_false, decide_eq_true_eq] at hk
        intro he
        exact hk p hp he.symm
    have hord2 : fOrd ((acc ++ [(k, v)]).map Prod.fst ++ fs.map Prod.fst) = true := by
      simpa using hord
    rw [ih (acc ++ [(k, v)]) hnd' hord2 hdisj2]
    simp

theorem buildObj_self {fs : List (String × JValue)} (hnd : nodupKeys fs = true)
    (hord : fOrd (fs.map Prod.fst) = true) : buildObj fs = fs := by
  have hg := buildObj_go fs [] hnd (by simpa using hord) (by simp)
  simpa [buildObj] using hg
theorem parseValue_null {f : Nat} {cs0 r : List Char}
    (h : skipWs cs0 = 'n' :: 'u' :: 'l' :: 'l' :: r) :
    parseValue (f + 1) cs0 = some (.null, r) := by
  rw [parseValue, h]
  rfl

theorem parseValue_true {f : Nat} {cs0 r : List Char}
    (h : skipWs cs0 = 't' :: 'r' :: 'u' :: 'e' :: r) :
    parseValue (f + 1) cs0 = some (.bool true, r) := by
  rw [parseValue, h]
  rfl

theorem parseValue_false {f : Nat} {cs0 r : List Char}
    (h : skipWs cs0 = 'f' :: 'a' :: 'l' :: 's' :: 'e' :: r) :
    parseValue (f + 1) cs0 = some (.bool false, r) := by
  rw [parseValue, h]
  rfl

theorem parseValue_quote {f : Nat} {cs0 cs : List Char}
    (h : skipWs cs0 = '"' :: cs) :
    parseValue (f + 1) cs0 =
      (parseStringBody cs).map fun p => (JValue.str (String.mk p.1), p.2) := by
  rw [parseValue, h]
  rfl

theorem parseValue_arrNil {f : Nat} {cs0 cs r : List Char}
    (h : skipWs cs0 = '[' :: cs) (h2 : skipWs cs = ']' :: r) :
    parseValue (f + 1) cs0 = some (.arr [], r) := by
  rw [parseValue, h]
  simp only [h2]
  rfl

theorem parseValue_arrCons {f : Nat} {cs0 cs cs2 : List Char} {c : Char}
    (h : skipWs cs0 = '[' :: cs) (h2 : skipWs cs = c :: cs2) (hc : c ≠ ']') :
    parseValue (f + 1) cs0 =
      (parseElems f (c :: cs2)).map fun p => (JValue.arr p.1, p.2) := by
  rw [parseValue, h]
  simp only [h2]
  simp [hc]

theorem parseValue_objNil {f : Nat} {cs0 cs r : List Char}
    (h : skipWs cs0 = '{' :: cs) (h2 : skipWs cs = '}' :: r) :
    parseValue (f + 1) cs0 = some (.obj [], r) := by
  rw [parseValue, h]
  simp only [h2]
  rfl

theorem parseValue_objCons {f : Nat} {cs0 cs cs2 : List Char} {c : Char}
    (h : skipWs cs0 = '{' :: cs) (h2 : skipWs cs = c :: cs2) (hc : c ≠ '}') :
    parseValue (f + 1) cs0 =
      (parseFields f (c :: cs2)).map fun p => (JValue.obj (buildObj p.1), p.2) := by
  rw [parseValue, h]
  simp only [h2]
  simp [hc]

theorem parseValue_numeral {f : Nat} {cs0 cs : List Char} {c : Char}
    (h : skipWs cs0 = c :: cs) (hd : isDigitCh c = true ∨ c = '-') :
    parseValue (f + 1) cs0 = (parseNum (c :: cs)).map fun p => (JValue.num p.1, p.2) := by
  obtain ⟨-, h1, h2, h3, h4, h5, h6⟩ := numStart_facts hd
  rw [parseValue, h]
  simp [h1, h2, h3, h4, h5, h6]

theorem parseElems_step (f : Nat) (cs : List Char) :
    parseElems (f + 1) cs =
      (parseValue f cs).bind fun p =>
        match skipWs p.2 with
        | ',' :: r2 => (parseElems f r2).map fun q => (p.1 :: q.1, q.2)
        | ']' :: r2 => some ([p.1], r2)
        | _ => none := by
  rw [parseElems]

theorem parseFields_step (f : Nat) (cs : List Char) :
    parseFields (f + 1) cs =
      match skipWs cs with
      | '"' :: r =>
        (parseStringBody r).bind fun pk =>
          match skipWs pk.2 with
          | ':' :: r2 =>
            (parseValue f r2).bind fun pv =>
              match skipWs pv.2 with
              | ',' :: r4 => (parseFields f r4).map fun q => ((String.mk pk.1, pv.1) :: q.1, q.2)
              | '}' :: r4 => some ([(String.mk pk.1, pv.1)], r4)
              | _ => none
          | _ => none
      | _ => none := by
  rw [parseFields]

/-- Dispatch lemma for the object-member loop. -/
theorem parseFields_go {f : Nat} {cs0 r : List Char} (h : skipWs cs0 = '"' :: r) :
    parseFields (f + 1) cs0 =
      (parseStringBody r).bind fun pk =>
        match skipWs pk.2 with
        | ':' :: r2 =>
          (parseValue f r2).bind fun pv =>
            match skipWs pv.2 with
            | ',' :: r4 => (parseFields f r4).map fun q => ((String.mk pk.1, pv.1) :: q.1, q.2)
            | '}' :: r4 => some ([(String.mk pk.1, pv.1)], r4)
            | _ => none
        | _ => none := by
  rw [parseFields, h]
  rfl

theorem nlIndent_ws (d : Nat) : ∀ c ∈ '\n' :: indentL d, jsonWs c = true := by
  intro c hc
  rcases List.mem_cons.mp hc with rfl | hc
  · rfl
  · exact indentL_ws c hc

/-! ## The round trip: parsing a serialized well-formed tree -/

theorem parseValue_sAux (d : Nat) (v : JValue) :
    WFb v = true → ∀ f, sz v ≤ f → ∀ pre rest, (∀ c ∈ pre, jsonWs c = true) →
      numSafeHead rest = true →
      parseValue f (pre ++ sAux d v ++ rest) = some (v, rest) := by
  refine sAux.induct
    (fun d v => WFb v = true → ∀ f, sz v ≤ f → ∀ pre rest, (∀ c ∈ pre, jsonWs c = true) →
      numSafeHead rest = true → parseValue f (pre ++ sAux d v ++ rest) = some (v, rest))
    (fun d p ps => WFbFields (p :: ps) = true → ∀ f, szFields (p :: ps) ≤ f →
      ∀ pre cl rest, (∀ c ∈ pre, jsonWs c = true) → (∀ c ∈ cl, jsonWs c = true) →
      parseFields f (pre ++ sFields d p ps ++ cl ++ '}' :: rest) = some (p :: ps, rest))
    (fun d p => WFb p.2 = true → ∀ f, sz p.2 ≤ f → ∀ pre rest, (∀ c ∈ pre, jsonWs c = true) →
      numSafeHead rest = true → parseValue f (pre ++ sAux d p.2 ++ rest) = some (p.2, rest))
    (fun d e es => WFb e = true → WFbList es = true → ∀ f, szList (e :: es) ≤ f →
      ∀ pre cl rest, (∀ c ∈ pre, jsonWs c = true) → (∀ c ∈ cl, jsonWs c = true) →
      parseElems f (pre ++ sItems d e es ++ cl ++ ']' :: rest) = some (e :: es, rest))
    ?_ ?_ ?_ ?_ ?_ ?_ ?_ ?_ ?_ ?_ ?_ ?_ ?_ ?_ d v
  · -- null
    intro x hwf f hf pre rest hpre hrest
    have hf1 : 1 ≤ f := by simpa [sz] using hf
    obtain ⟨f', rfl⟩ : ∃ f', f = f' + 1 := ⟨f - 1, by omega⟩
    refine parseValue_null ?_
    rw [List.append_assoc, show sAux x .null ++ rest = 'n' :: 'u' :: 'l' :: 'l' :: rest by
      simp [sAux]]
    exact skipWs_close hpre (by decide)
  · -- true
    intro x hwf f hf pre rest hpre hrest
    have hf1 : 1 ≤ f := by simpa [sz] using hf
    obtain ⟨f', rfl⟩ : ∃ f', f = f' + 1 := ⟨f - 1, by omega⟩
    refine parseValue_true ?_
    rw [List.append_assoc, show sAux x (.bool true) ++ rest = 't' :: 'r' :: 'u' :: 'e' :: rest by
      simp [sAux]]
    exact skipWs_close hpre (by decide)
  · -- false
    intro x hwf f hf pre rest hpre hrest
    have hf1 : 1 ≤ f := by simpa [sz] using hf
    obtain ⟨f', rfl⟩ : ∃ f', f = f' + 1 := ⟨f - 1, by omega⟩
    refine parseValue_false ?_
    rw [List.append_assoc,
      show sAux x (.bool false) ++ rest = 'f' :: 'a' :: 'l' :: 's' :: 'e' :: rest by simp [sAux]]
    exact skipWs_close hpre (by decide)
  · -- num
    intro x n hwf f hf pre rest hpre hrest
    have hf1 : 1 ≤ f := by simpa [sz] using hf
    obtain ⟨f', rfl⟩ : ∃ f', f = f' + 1 := ⟨f - 1, by omega⟩
    obtain ⟨c, t, heq, hd⟩ := intChars_head n
    have hskip : skipWs (pre ++ sAux x (.num n) ++ rest) = c :: (t ++ rest) := by
      rw [List.append_assoc, show sAux x (.num n) ++ rest = c :: (t ++ rest) by simp [sAux, heq]]
      exact skipWs_close hpre (numStart_facts hd).1
    rw [parseValue_numeral hskip hd,
      show c :: (t ++ rest) = intChars n ++ rest by simp [heq],
      parseNum_intChars hrest]
    rfl
  · -- str
    intro x s hwf f hf pre rest hpre hrest
    have hf1 : 1 ≤ f := by simpa [sz] using hf
    obtain ⟨f', rfl⟩ : ∃ f', f = f' + 1 := ⟨f - 1, by omega⟩
    have hskip : skipWs (pre ++ sAux x (.str s) ++ rest) =
        '"' :: (escBody s.data ++ '"' :: rest) := by
      rw [List.append_assoc,
        show sAux x (.str s) ++ rest = '"' :: (escBody s.data ++ '"' :: rest) by simp [sAux]]
      exact skipWs_close hpre (by decide)
    rw [parseValue_quote hskip, parseStringBody_escBody]
    simp [strMk_data]
  · -- arr []
    intro x hwf f hf pre rest hpre hrest
    have hf1 : 1 ≤ f := by simp [sz, szList] at hf; omega
    obtain ⟨f', rfl⟩ : ∃ f', f = f' + 1 := ⟨f - 1, by omega⟩
    have hskip : skipWs (pre ++ sAux x (.arr []) ++ rest) = '[' :: (']' :: rest) := by
      rw [List.append_assoc, show sAux x (.arr []) ++ rest = '[' :: ']' :: rest by simp [sAux]]
      exact skipWs_close hpre (by decide)
    exact parseValue_arrNil hskip (skipWs_not_ws (by decide))
  · -- arr cons
    intro d e es ih hwf f hf pre rest hpre hrest
    have hwf2 : WFb e = true ∧ WFbList es = true := by
      simpa [WFb, WFbList, Bool.and_eq_true] using hwf
    have hfs : 1 + szList (e :: es) ≤ f := by
      have : sz (.arr (e :: es)) = 1 + szList (e :: es) := by simp [sz]
      omega
    obtain ⟨f', rfl⟩ : ∃ f', f = f' + 1 := ⟨f - 1, by omega⟩
    obtain ⟨c0, t0, heqI, hws0, hne0, hne0b⟩ := sItems_head (d + 1) e es
    have hstream : pre ++ sAux d (.arr (e :: es)) ++ rest =
        pre ++ '[' :: ('\n' :: (indentL (d + 1) ++
          (sItems (d + 1) e es ++ ('\n' :: (indentL d ++ (']' :: rest)))))) := by
      simp [sAux]
    have hwsmid := nlIndent_ws (d + 1)
    have hskip1 : skipWs (pre ++ '[' :: ('\n' :: (indentL (d + 1) ++
        (sItems (d + 1) e es ++ ('\n' :: (indentL d ++ (']' :: rest))))))) =
        '[' :: ('\n' :: (indentL (d + 1) ++
          (sItems (d + 1) e es ++ ('\n' :: (indentL d ++ (']' :: rest)))))) :=
      skipWs_close hpre (by decide)
    have hskip2 : skipWs ('\n' :: (indentL (d + 1) ++
        (sItems (d + 1) e es ++ ('\n' :: (indentL d ++ (']' :: rest)))))) =
        c0 :: (t0 ++ ('\n' :: (indentL d ++ (']' :: rest)))) := by
      rw [show ('\n' :: (indentL (d + 1) ++
          (sItems (d + 1) e es ++ ('\n' :: (indentL d ++ (']' :: rest)))))) =
          ('\n' :: indentL (d + 1)) ++
            (sItems (d + 1) e es ++ ('\n' :: (indentL d ++ (']' :: rest)))) by simp]
      rw [skipWs_ws_pre _ hwsmid, heqI, List.cons_append]
      exact skipWs_not_ws hws0
    rw [hstream, parseValue_arrCons hskip1 hskip2 hne0]
    have harg : c0 :: (t0 ++ ('\n' :: (indentL d ++ (']' :: rest)))) =
        [] ++ sItems (d + 1) e es ++ ('\n' :: indentL d) ++ ']' :: rest := by
      simp [heqI]
    rw [harg, ih hwf2.1 hwf2.2 f' (by omega) [] ('\n' :: indentL d) rest (by simp)
      (nlIndent_ws d)]
    rfl
  · -- obj []
    intro x hwf f hf pre rest hpre hrest
    have hf1 : 1 ≤ f := by simp [sz, szFields] at hf; omega
    obtain ⟨f', rfl⟩ : ∃ f', f = f' + 1 := ⟨f - 1, by omega⟩
    have hskip : skipWs (pre ++ sAux x (.obj []) ++ rest) = '{' :: ('}' :: rest) := by
      rw [List.append_assoc, show sAux x (.obj []) ++ rest = '{' :: '}' :: rest by simp [sAux]]
      exact skipWs_close hpre (by decide)
    exact parseValue_objNil hskip (skipWs_not_ws (by decide))
  · -- obj cons
    intro d p ps ih hwf f hf pre rest hpre hrest
    have hwf2 : nodupKeys (p :: ps) = true ∧ fOrd ((p :: ps).map Prod.fst) = true ∧
        WFbFields (p :: ps) = true := by
      simpa [WFb, Bool.and_eq_true] using hwf
    have hfs : 1 + szFields (p :: ps) ≤ f := by
      have : sz (.obj (p :: ps)) = 1 + szFields (p :: ps) := by simp [sz]
      omega
    obtain ⟨f', rfl⟩ : ∃ f', f = f' + 1 := ⟨f - 1, by omega⟩
    obtain ⟨tq, heqF⟩ := sFields_head (d + 1) p ps
    have hstream : pre ++ sAux d (.obj (p :: ps)) ++ rest =
        pre ++ '{' :: ('\n' :: (indentL (d + 1) ++
          (sFields (d + 1) p ps ++ ('\n' :: (indentL d ++ ('}' :: rest)))))) := by
      simp [sAux]
    have hwsmid := nlIndent_ws (d + 1)
    have hskip1 : skipWs (pre ++ '{' :: ('\n' :: (indentL (d + 1) ++
        (sFields (d + 1) p ps ++ ('\n' :: (indentL d ++ ('}' :: rest))))))) =
        '{' :: ('\n' :: (indentL (d + 1) ++
          (sFields (d + 1) p ps ++ ('\n' :: (indentL d ++ ('}' :: rest)))))) :=
      skipWs_close hpre (by decide)
    have hskip2 : skipWs ('\n' :: (indentL (d + 1) ++
        (sFields (d + 1) p ps ++ ('\n' :: (indentL d ++ ('}' :: rest)))))) =
        '"' :: (tq ++ ('\n' :: (indentL d ++ ('}' :: rest)))) := by
      rw [show ('\n' :: (indentL (d + 1) ++
          (sFields (d + 1) p ps ++ ('\n' :: (indentL d ++ ('}' :: rest)))))) =
          ('\n' :: indentL (d + 1)) ++
            (sFields (d + 1) p ps ++ ('\n' :: (indentL d ++ ('}' :: rest)))) by simp]
      rw [skipWs_ws_pre _ hwsmid, heqF, List.cons_append]
      exact skipWs_not_ws (by decide)
    rw [hstream, parseValue_objCons hskip1 hskip2 (by decide)]
    have harg : '"' :: (tq ++ ('\n' :: (indentL d ++ ('}' :: rest)))) =
        [] ++ sFields (d + 1) p ps ++ ('\n' :: indentL d) ++ '}' :: rest := by
      simp [heqF]
    rw [harg, ih hwf2.2.2 f' (by omega) [] ('\n' :: indentL d) rest (by simp)
      (nlIndent_ws d)]
    simp [buildObj_self hwf2.1 hwf2.2.1]
  · -- sFields nil
    intro d p ih hwf f hf pre cl rest hpre hcl
    obtain ⟨k, v⟩ := p
    have ih' : WFb v = true → ∀ f, sz v ≤ f → ∀ pre rest, (∀ c ∈ pre, jsonWs c = true) →
        numSafeHead rest = true → parseValue f (pre ++ sAux d v ++ rest) = some (v, rest) := ih
    have hwfv : WFb v = true := by simpa [WFbFields] using hwf
    have hf1 : sz v + 2 ≤ f := by
      have hsz : szFields [(k, v)] = 1 + sz v + 1 := by simp [szFields]
      omega
    obtain ⟨f', rfl⟩ : ∃ f', f = f' + 1 := ⟨f - 1, by omega⟩
    have hstream : pre ++ sFields d (k, v) [] ++ cl ++ '}' :: rest =
        pre ++ '"' :: (escBody k.data ++ '"' ::
          (':' :: (' ' :: (sAux d v ++ (cl ++ '}' :: rest))))) := by
      simp [sFields, sField]
    rw [hstream, parseFields_go (skipWs_close hpre (by decide))]
    rw [parseStringBody_escBody]
    simp only [Option.some_bind]
    rw [skipWs_not_ws (by decide)]
    rw [show (' ' :: (sAux d v ++ (cl ++ '}' :: rest))) =
      [' '] ++ sAux d v ++ (cl ++ '}' :: rest) by simp]
    simp only [ih' hwfv f' (by omega) [' '] (cl ++ '}' :: rest) (by decide)
      (numSafe_ws_append hcl (by rfl)), Option.some_bind]
    rw [skipWs_close hcl (by decide)]
    simp [strMk_data]
  · -- sFields cons
    intro d p p2 ps ih1 ih2 hwf f hf pre cl rest hpre hcl
    obtain ⟨k, v⟩ := p
    have ih1' : WFb v = true → ∀ f, sz v ≤ f → ∀ pre rest, (∀ c ∈ pre, jsonWs c = true) →
        numSafeHead rest = true → parseValue f (pre ++ sAux d v ++ rest) = some (v, rest) := ih1
    have hwfv : WFb v = true ∧ WFbFields (p2 :: ps) = true := by
      simpa [WFbFields, Bool.and_eq_true] using hwf
    have hf1 : 1 + sz v + szFields (p2 :: ps) ≤ f := by
      have hsz : szFields ((k, v) :: p2 :: ps) = 1 + sz v + szFields (p2 :: ps) := by
        simp [szFields]
      omega
    obtain ⟨f', rfl⟩ : ∃ f', f = f' + 1 := ⟨f - 1, by omega⟩
    have hstream : pre ++ sFields d (k, v) (p2 :: ps) ++ cl ++ '}' :: rest =
        pre ++ '"' :: (escBody k.data ++ '"' :: (':' :: (' ' :: (sAux d v ++
          (',' :: '\n' :: (indentL d ++ (sFields d p2 ps ++ (cl ++ '}' :: rest)))))))) := by
      simp [sFields, sField]
    rw [hstream, parseFields_go (skipWs_close hpre (by decide))]
    rw [parseStringBody_escBody]
    simp only [Option.some_bind]
    rw [skipWs_not_ws (by decide)]
    rw [show (' ' :: (sAux d v ++
        (',' :: '\n' :: (indentL d ++ (sFields d p2 ps ++ (cl ++ '}' :: rest)))))) =
      [' '] ++ sAux d v ++
        (',' :: '\n' :: (indentL d ++ (sFields d p2 ps ++ (cl ++ '}' :: rest)))) by simp]
    simp only [ih1' hwfv.1 f' (by omega) [' ']
      (',' :: '\n' :: (indentL d ++ (sFields d p2 ps ++ (cl ++ '}' :: rest))))
      (by decide) (by rfl), Option.some_bind]
    rw [skipWs_not_ws (by decide)]
    have harg : '\n' :: (indentL d ++ (sFields d p2 ps ++ (cl ++ '}' :: rest))) =
        ('\n' :: indentL d) ++ sFields d p2 ps ++ cl ++ '}' :: rest := by simp
    rw [harg]
    simp only [ih2 hwfv.2 f' (by omega) ('\n' :: indentL d) cl rest (nlIndent_ws d) hcl]
    simp [strMk_data]
  · -- sField
    intro d k v ih
    exact ih
  · -- sItems nil
    intro d e ih hwf hwfl f hf pre cl rest hpre hcl
    have hf1 : sz e + 2 ≤ f := by
      have : szList [e] = 1 + sz e + 1 := by simp [szList]
      omega
    obtain ⟨f', rfl⟩ : ∃ f', f = f' + 1 := ⟨f - 1, by omega⟩
    rw [parseElems_step]
    have hstream : pre ++ sItems d e [] ++ cl ++ ']' :: rest =
        pre ++ sAux d e ++ (cl ++ ']' :: rest) := by
      simp [sItems]
    rw [hstream]
    simp only [ih hwf f' (by omega) pre (cl ++ ']' :: rest) hpre
      (numSafe_ws_append hcl (by rfl)), Option.some_bind]
    rw [skipWs_close hcl (by decide)]
    rfl
  · -- sItems cons
    intro d e e2 es ih1 ih2 hwf hwfl f hf pre cl rest hpre hcl
    have hwfl2 : WFb e2 = true ∧ WFbList es = true := by
      simpa [WFbList, Bool.and_eq_true] using hwfl
    have hf1 : 1 + sz e + szList (e2 :: es) ≤ f := by
      have : szList (e :: e2 :: es) = 1 + sz e + szList (e2 :: es) := by simp [szList]
      omega
    obtain ⟨f', rfl⟩ : ∃ f', f = f' + 1 := ⟨f - 1, by omega⟩
    rw [parseElems_step]
    have hstream : pre ++ sItems d e (e2 :: es) ++ cl ++ ']' :: rest =
        pre ++ sAux d e ++
          (',' :: '\n' :: (indentL d ++ (sItems d e2 es ++ (cl ++ ']' :: rest)))) := by
      simp [sItems]
    rw [hstream]
    simp only [ih1 hwf f' (by omega) pre
      (',' :: '\n' :: (indentL d ++ (sItems d e2 es ++ (cl ++ ']' :: rest)))) hpre (by rfl),
      Option.some_bind]
    rw [skipWs_not_ws (by decide)]
    have harg : '\n' :: (indentL d ++ (sItems d e2 es ++ (cl ++ ']' :: rest))) =
        ('\n' :: indentL d) ++ sItems d e2 es ++ cl ++ ']' :: rest := by simp
    rw [harg]
    simp only [ih2 hwfl2.1 hwfl2.2 f' (by omega) ('\n' :: indentL d) cl rest
      (nlIndent_ws d) hcl]
    rfl

/-- Round trip at the top level: `JSON.parse` recovers any well-formed
tree from its `JSON.stringify(·, null, 2)` rendering. -/
theorem parseJson_stringify2 {v : JValue} (h : WFb v = true) :
    parseJson (stringify2 v) = some v := by
  have hs := sz_le_sAux_len 0 v
  have hlen : sz v ≤ (stringify2 v).length + 1 := by
    have he : (stringify2 v).length = (sAux 0 v).length := rfl
    omega
  have hp := parseValue_sAux 0 v h ((stringify2 v).length + 1) hlen [] [] (by simp) rfl
  rw [List.nil_append, List.append_nil] at hp
  unfold parseJson
  rw [show (stringify2 v).data = sAux 0 v from rfl, hp]
  rfl


/-! ## Everything JSON.parse produces is well-formed -/

theorem objIns_wf {fs : List (String × JValue)} {k : String} {v : JValue}
    (hnd : nodupKeys fs = true) (hord : fOrd (fs.map Prod.fst) = true)
    (hwf : WFbFields fs = true) (hv : WFb v = true) :
    nodupKeys (objIns fs k v) = true ∧ fOrd ((objIns fs k v).map Prod.fst) = true ∧
      WFbFields (objIns fs k v) = true := by
  unfold objIns
  by_cases hmem : (fs.any fun p => p.1 = k) = true
  · rw [if_pos hmem]
    exact ⟨nodupKeys_setKey v hnd, by rw [setKey_keys]; exact hord, WFbFields_setKey hwf hv⟩
  · rw [if_neg hmem]
    have hfresh : ∀ p ∈ fs, p.1 ≠ k := by
      simp only [List.any_eq_true, decide_eq_true_eq, not_exists, not_and] at hmem
      exact hmem
    exact ⟨nodupKeys_insNew hfresh hnd, fOrd_insNew hfresh hord, WFbFields_insNew hwf hv⟩

theorem objAssign_wf {fs : List (String × JValue)} {k : String} {v : JValue}
    (hnd : nodupKeys fs = true) (hord : fOrd (fs.map Prod.fst) = true)
    (hwf : WFbFields fs = true) (hv : WFb v = true) :
    nodupKeys (objAssign fs k v) = true ∧ fOrd ((objAssign fs k v).map Prod.fst) = true ∧
      WFbFields (objAssign fs k v) = true := by
  unfold objAssign
  by_cases hmem : (fs.any fun p => p.1 = k) = true
  · rw [if_pos hmem]
    exact ⟨nodupKeys_setKey v hnd, by rw [setKey_keys]; exact hord, WFbFields_setKey hwf hv⟩
  · rw [if_neg hmem]
    by_cases hpk : k = "__proto__"
    · rw [if_pos hpk]
      exact ⟨hnd, hord, hwf⟩
    · rw [if_neg hpk]
      have hfresh : ∀ p ∈ fs, p.1 ≠ k := by
        simp only [List.any_eq_true, decide_eq_true_eq, not_exists, not_and] at hmem
        exact hmem
      exact ⟨nodupKeys_insNew hfresh hnd, fOrd_insNew hfresh hord, WFbFields_insNew hwf hv⟩

theorem buildObj_wf {ps : List (String × JValue)} (h : WFbFields ps = true) :
    nodupKeys (buildObj ps) = true ∧ fOrd ((buildObj ps).map Prod.fst) = true ∧
      WFbFields (buildObj ps) = true := by
  suffices hgen : ∀ ps acc, WFbFields ps = true → nodupKeys acc = true →
      fOrd (acc.map Prod.fst) = true → WFbFields acc = true →
      nodupKeys (ps.foldl (fun a p => objIns a p.1 p.2) acc) = true ∧
      fOrd ((ps.foldl (fun a p => objIns a p.1 p.2) acc).map Prod.fst) = true ∧
      WFbFields (ps.foldl (fun a p => objIns a p.1 p.2) acc) = true from
    hgen ps [] h (by simp [nodupKeys]) (by rfl) (by simp [WFbFields])
  intro ps
  induction ps with
  | nil => intro acc _ h1 h2 h3; exact ⟨h1, h2, h3⟩
  | cons p ps ih =>
    intro acc hwf h1 h2 h3
    obtain ⟨k, v⟩ := p
    simp only [WFbFields, Bool.and_eq_true] at hwf
    simp only [List.foldl_cons]
    obtain ⟨g1, g2, g3⟩ := objIns_wf h1 h2 h3 hwf.1
    exact ih (objIns acc k v) hwf.2 g1 g2 g3

theorem parse_wf (f : Nat) :
    (∀ cs v r, parseValue f cs = some (v, r) → WFb v = true) ∧
    (∀ cs es r, parseElems f cs = some (es, r) → WFbList es = true) ∧
    (∀ cs ps r, parseFields f cs = some (ps, r) → WFbFields ps = true) := by
  induction f with
  | zero =>
    refine ⟨?_, ?_, ?_⟩ <;> intro cs x r h <;>
      simp [parseValue, parseElems, parseFields] at h
  | succ f ih =>
    obtain ⟨ihv, ihe, ihf⟩ := ih
    refine ⟨?_, ?_, ?_⟩
    · intro cs v r h
      rw [parseValue] at h
      split at h
      · simp at h
      · split_ifs at h with h1 h2 h3 h4 h5 h6
        · -- object
          split at h
          · simp only [Option.some.injEq, Prod.mk.injEq] at h
            obtain ⟨rfl, rfl⟩ := h
            simp [WFb, nodupKeys, WFbFields, fOrd]
          · rcases Option.map_eq_some'.mp h with ⟨q, hq, hvq⟩
            simp only [Prod.mk.injEq] at hvq
            obtain ⟨rfl, rfl⟩ := hvq
            have hfw := ihf _ q.1 q.2 (by rw [hq])
            obtain ⟨hnd, hord, hwf⟩ := buildObj_wf hfw
            simp [WFb, hnd, hord, hwf]
        · -- array
          split at h
          · simp only [Option.some.injEq, Prod.mk.injEq] at h
            obtain ⟨rfl, rfl⟩ := h
            simp [WFb, WFbList]
          · rcases Option.map_eq_some'.mp h with ⟨q, hq, hvq⟩
            simp only [Prod.mk.injEq] at hvq
            obtain ⟨rfl, rfl⟩ := hvq
            have hfw := ihe _ q.1 q.2 (by rw [hq])
            simp [WFb, hfw]
        · -- string
          rcases Option.map_eq_some'.mp h with ⟨q, hq, hvq⟩
          simp only [Prod.mk.injEq] at hvq
          obtain ⟨rfl, rfl⟩ := hvq
          simp [WFb]
        · -- true
          split at h
          · simp only [Option.some.injEq, Prod.mk.injEq] at h
            obtain ⟨rfl, rfl⟩ := h
            simp [WFb]
          · simp at h
        · -- false
          split at h
          · simp only [Option.some.injEq, Prod.mk.injEq] at h
            obtain ⟨rfl, rfl⟩ := h
            simp [WFb]
          · simp at h
        · -- null
          split at h
          · simp only [Option.some.injEq, Prod.mk.injEq] at h
            obtain ⟨rfl, rfl⟩ := h
            simp [WFb]
          · simp at h
        · -- number
          rcases Option.map_eq_some'.mp h with ⟨q, hq, hvq⟩
          simp only [Prod.mk.injEq] at hvq
          obtain ⟨rfl, rfl⟩ := hvq
          simp [WFb]
    · intro cs es r h
      rw [parseElems] at h
      rcases Option.bind_eq_some.mp h with ⟨p, hv, h2⟩
      split at h2
      · rcases Option.map_eq_some'.mp h2 with ⟨q, hq, hvq⟩
        simp only [Prod.mk.injEq] at hvq
        obtain ⟨rfl, rfl⟩ := hvq
        have hwv := ihv cs p.1 p.2 (by rw [hv])
        have hwe := ihe _ q.1 q.2 (by rw [hq])
        simp [WFbList, hwv, hwe]
      · simp only [Option.some.injEq, Prod.mk.injEq] at h2
        obtain ⟨rfl, rfl⟩ := h2
        have hwv := ihv cs p.1 p.2 (by rw [hv])
        simp [WFbList, hwv]
      · simp at h2
    · intro cs ps r h
      rw [parseFields] at h
      split at h
      · rcases Option.bind_eq_some.mp h with ⟨pk, hsb, h2⟩
        split at h2
        · rcases Option.bind_eq_some.mp h2 with ⟨pv, hv, h3⟩
          split at h3
          · rcases Option.map_eq_some'.mp h3 with ⟨q, hq, hvq⟩
            simp only [Prod.mk.injEq] at hvq
            obtain ⟨rfl, rfl⟩ := hvq
            have hwv := ihv _ pv.1 pv.2 (by rw [hv])
            have hwq := ihf _ q.1 q.2 (by rw [hq])
            simp [WFbFields, hwv, hwq]
          · simp only [Option.some.injEq, Prod.mk.injEq] at h3
            obtain ⟨rfl, rfl⟩ := h3
            have hwv := ihv _ pv.1 pv.2 (by rw [hv])
            simp [WFbFields, hwv]
          · simp at h3
        · simp at h2
      · simp at h

/-- Parsing with `JSON.parse` yields only well-formed trees. -/
theorem parseJson_wf {s : String} {v : JValue} (h : parseJson s = some v) :
    WFb v = true := by
  unfold parseJson at h
  rcases hp : parseValue (s.length + 1) s.data with - | p <;> rw [hp] at h
  · simp at h
  · have h2 : (if (skipWs p.2).isEmpty = true then some p.1 else none) = some v := h
    split_ifs at h2 with hw
    · simp only [Option.some.injEq] at h2
      subst h2
      exact (parse_wf (s.length + 1)).1 s.data p.1 p.2 (by rw [hp])

/-! ## Own-property reads and writes on the document -/

theorem WFbFields_lookup {fs : List (String × JValue)} {k : String} {v : JValue}
    (h : WFbFields fs = true) (hl : objLookup fs k = some v) : WFb v = true := by
  induction fs with
  | nil => simp [objLookup] at hl
  | cons q fs ih =>
    obtain ⟨k0, v0⟩ := q
    simp only [WFbFields, Bool.and_eq_true] at h
    by_cases he : k0 = k
    · subst he
      simp [objLookup] at hl
      subst hl
      exact h.1
    · simp only [objLookup, if_neg he] at hl
      exact ih h.2 hl

theorem WFbList_mem {es : List JValue} {x : JValue} (h : WFbList es = true) (hm : x ∈ es) :
    WFb x = true := by
  induction es with
  | nil => simp at hm
  | cons e es ih =>
    simp only [WFbList, Bool.and_eq_true] at h
    rcases List.mem_cons.mp hm with rfl | hm
    · exact h.1
    · exact ih h.2 hm

theorem ownGet_arr_inv {es : List JValue} {k : Seg} {x : JValue}
    (h : ownGet (.arr es) k = some x) :
    ∃ i, segArrIndex k = some i ∧ es[i]? = some x ∧ i < es.length := by
  have h2 : ((segArrIndex k).bind fun i => es[i]?) = some x := h
  rcases hi : segArrIndex k with - | i <;> rw [hi] at h2
  · simp at h2
  · simp only [Option.some_bind] at h2
    exact ⟨i, rfl, h2, (List.getElem?_eq_some_iff.mp h2).1⟩

theorem ownGet_wf {cur : JValue} {k : Seg} {x : JValue} (h : WFb cur = true)
    (hg : ownGet cur k = some x) : WFb x = true := by
  cases cur with
  | obj fs =>
    have h2 : objLookup fs (segKey k) = some x := hg
    simp only [WFb, Bool.and_eq_true] at h
    exact WFbFields_lookup h.2.2 h2
  | arr es =>
    obtain ⟨i, -, hget, -⟩ := ownGet_arr_inv hg
    have hm : x ∈ es := List.getElem?_mem hget
    have h2 : WFbList es = true := by simpa [WFb] using h
    exact WFbList_mem h2 hm
  | null => simp [ownGet] at hg
  | bool b => simp [ownGet] at hg
  | num n => simp [ownGet] at hg
  | str s => simp [ownGet] at hg

theorem WFbList_append {a b : List JValue} :
    WFbList (a ++ b) = (WFbList a && WFbList b) := by
  induction a with
  | nil => simp [WFbList]
  | cons e a ih => simp [WFbList, ih, Bool.and_assoc]

theorem WFbList_replicate_null (n : Nat) : WFbList (List.replicate n .null) = true := by
  induction n with
  | zero => simp [WFbList]
  | succ n ih => simp [List.replicate, WFbList, ih, WFb]

theorem WFbList_set {es : List JValue} {i : Nat} {v : JValue} (h : WFbList es = true)
    (hv : WFb v = true) : WFbList (es.set i v) = true := by
  induction es generalizing i with
  | nil => simpa [WFbList] using h
  | cons e es ih =>
    simp only [WFbList, Bool.and_eq_true] at h
    cases i with
    | zero => simp [List.set, WFbList, hv, h.2]
    | succ i => simp [List.set, WFbList, h.1, ih h.2]

theorem WFbList_take {es : List JValue} (n : Nat) (h : WFbList es = true) :
    WFbList (es.take n) = true := by
  induction es generalizing n with
  | nil => simp [WFbList]
  | cons e es ih =>
    simp only [WFbList, Bool.and_eq_true] at h
    cases n with
    | zero => simp [WFbList]
    | succ n => simp [List.take, WFbList, h.1, ih n h.2]

theorem WFbList_setIdx {es : List JValue} {i : Nat} {v : JValue} (h : WFbList es = true)
    (hv : WFb v = true) : WFbList (setIdx es i v) = true := by
  unfold setIdx
  split_ifs with hlt
  · exact WFbList_set h hv
  · rw [WFbList_append, WFbList_append]
    simp [h, WFbList_replicate_null, WFbList, hv]

theorem setIdx_get_self (es : List JValue) (i : Nat) (v : JValue) :
    (setIdx es i v)[i]? = some v := by
  unfold setIdx
  split_ifs with h
  · simp [List.getElem?_set, h]
  · rw [List.append_assoc, List.getElem?_append_right (by omega)]
    rw [List.getElem?_append_right (by simp)]
    simp

theorem setIdx_lt {es : List JValue} {i : Nat} (h : i < es.length) (v : JValue) :
    setIdx es i v = es.set i v := by
  unfold setIdx
  rw [if_pos h]

theorem resolve_append_one (ks : List Seg) (last : Seg) : ∀ t : JValue,
    resolve t (ks ++ [last]) = (resolve t ks).bind fun p => ownGet p last := by
  induction ks with
  | nil => intro t; simp [resolve]
  | cons s ks ih =>
    intro t
    show resolve t (s :: (ks ++ [last])) = _
    unfold resolve
    rcases ownGet t s with - | c
    · simp
    · simp only [Option.some_bind]
      exact ih c

theorem dropLast_cons2 (a b : Seg) (l : List Seg) :
    (a :: b :: l).dropLast = a :: (b :: l).dropLast := rfl

/-! ## The cursor walk: dispatch equations -/

theorem updTreeC_obj_own {fs : List (String × JValue)} {sg sg2 : Seg} {rest : List Seg}
    {u : JValue} (nv : JValue) (h : objLookup fs (segKey sg) = some u) :
    updTreeC (.tree (.obj fs)) (sg :: sg2 :: rest) nv =
      (updTreeC (.tree u) (sg2 :: rest) nv).lift fun u2 => .obj (setKey fs (segKey sg) u2) := by
  rw [updTreeC, h]

theorem updTreeC_obj_miss {fs : List (String × JValue)} {sg sg2 : Seg} {rest : List Seg}
    (nv : JValue) (h : objLookup fs (segKey sg) = none) :
    updTreeC (.tree (.obj fs)) (sg :: sg2 :: rest) nv =
      (match jsRead (.obj fs) (segKey sg) with
       | .val u => (updTreeC (.tree u) (sg2 :: rest) nv).toSame
       | .off o => updTreeC (.host o) (sg2 :: rest) nv
       | .undefined => .dead
       | .raise => .dead) := by
  rw [updTreeC, h]

theorem updTreeC_arr_idx {es : List JValue} {sg sg2 : Seg} {rest : List Seg}
    {i : Nat} {u : JValue} (nv : JValue) (hi : keyIdx (segKey sg) = some i)
    (hu : es[i]? = some u) :
    updTreeC (.tree (.arr es)) (sg :: sg2 :: rest) nv =
      (updTreeC (.tree u) (sg2 :: rest) nv).lift fun u2 => .arr (es.set i u2) := by
  rw [updTreeC, hi]
  simp only []
  rw [hu]

theorem updTreeC_arr_oob {es : List JValue} {sg sg2 : Seg} {rest : List Seg}
    {i : Nat} (nv : JValue) (hi : keyIdx (segKey sg) = some i) (hu : es[i]? = none) :
    updTreeC (.tree (.arr es)) (sg :: sg2 :: rest) nv =
      (match jsRead (.arr es) (segKey sg) with
       | .val u => (updTreeC (.tree u) (sg2 :: rest) nv).toSame
       | .off o => updTreeC (.host o) (sg2 :: rest) nv
       | .undefined => .dead
       | .raise => .dead) := by
  rw [updTreeC, hi]
  simp only []
  rw [hu]

theorem updTreeC_arr_nonidx {es : List JValue} {sg sg2 : Seg} {rest : List Seg}
    (nv : JValue) (hi : keyIdx (segKey sg) = none) :
    updTreeC (.tree (.arr es)) (sg :: sg2 :: rest) nv =
      (match jsRead (.arr es) (segKey sg) with
       | .val u => (updTreeC (.tree u) (sg2 :: rest) nv).toSame
       | .off o => updTreeC (.host o) (sg2 :: rest) nv
       | .undefined => .dead
       | .raise => .dead) := by
  rw [updTreeC, hi]

theorem updTreeC_null {sg sg2 : Seg} {rest : List Seg} (nv : JValue) :
    updTreeC (.tree .null) (sg :: sg2 :: rest) nv = .dead := rfl

theorem updTreeC_bool {b : Bool} {sg sg2 : Seg} {rest : List Seg} (nv : JValue) :
    updTreeC (.tree (.bool b)) (sg :: sg2 :: rest) nv =
      (match jsRead (.bool b) (segKey sg) with
       | .val u => (updTreeC (.tree u) (sg2 :: rest) nv).toSame
       | .off o => updTreeC (.host o) (sg2 :: rest) nv
       | .undefined => .dead
       | .raise => .dead) := rfl

theorem updTreeC_num {n : Int} {sg sg2 : Seg} {rest : List Seg} (nv : JValue) :
    updTreeC (.tree (.num n)) (sg :: sg2 :: rest) nv =
      (match jsRead (.num n) (segKey sg) with
       | .val u => (updTreeC (.tree u) (sg2 :: rest) nv).toSame
       | .off o => updTreeC (.host o) (sg2 :: rest) nv
       | .undefined => .dead
       | .raise => .dead) := rfl

theorem updTreeC_str {s : String} {sg sg2 : Seg} {rest : List Seg} (nv : JValue) :
    updTreeC (.tree (.str s)) (sg :: sg2 :: rest) nv =
      (match jsRead (.str s) (segKey sg) with
       | .val u => (updTreeC (.tree u) (sg2 :: rest) nv).toSame
       | .off o => updTreeC (.host o) (sg2 :: rest) nv
       | .undefined => .dead
       | .raise => .dead) := rfl

theorem jsRead_obj_own {fs : List (String × JValue)} {k : String} {u : JValue}
    (h : objLookup fs k = some u) : jsRead (.obj fs) k = .val u := by
  rw [jsRead, h]

theorem jsRead_arr_idx {es : List JValue} {k : String} {i : Nat} {u : JValue}
    (hlen : k ≠ "length") (hi : keyIdx k = some i) (hu : es[i]? = some u) :
    jsRead (.arr es) k = .val u := by
  rw [jsRead, if_neg hlen, hi]
  simp only []
  rw [hu]

/-! ## Host-side walks never produce a document tree -/

theorem UpdOut.toSame_ne_commit (o : UpdOut) (t : JValue) : o.toSame ≠ .commit t := by
  cases o <;> simp [UpdOut.toSame]

theorem UpdOut.lift_commit {o : UpdOut} {f : JValue → JValue} {t : JValue}
    (h : o.lift f = .commit t) : ∃ t0, o = .commit t0 ∧ t = f t0 := by
  cases o <;> simp [UpdOut.lift] at h
  exact ⟨_, rfl, h.symm⟩

theorem updTreeC_tree_single (cur : JValue) (sg : Seg) (nv : JValue) :
    updTreeC (.tree cur) [sg] nv = treeAssign cur (segKey sg) nv := by
  cases cur <;> rfl

theorem updTreeC_host_single (o : OffV) (sg : Seg) (nv : JValue) :
    updTreeC (.host o) [sg] nv = offAssign o (segKey sg) nv := by
  cases o <;> rfl

theorem offAssign_no_commit (o : OffV) (k : String) (nv : JValue) (t : JValue) :
    offAssign o k nv ≠ .commit t := by
  cases o with
  | builtinFn nm =>
    simp only [offAssign]
    split_ifs <;> simp
  | ctor nm => simp [offAssign]
  | funProtoO =>
    simp only [offAssign]
    split_ifs <;> simp
  | objProtoO =>
    simp only [offAssign]
    split_ifs <;> simp
  | arrProtoO =>
    simp only [offAssign]
    split_ifs
    · rcases toLen nv with - | x
      · simp
      · rcases x with - | n <;> simp
    · simp
  | strProtoO =>
    simp only [offAssign]
    split_ifs <;> simp
  | numProtoO => simp [offAssign]
  | boolProtoO => simp [offAssign]
  | anum => simp [offAssign]

theorem updHost_no_commit : ∀ (path : List Seg) (o : OffV) (nv t : JValue),
    updTreeC (.host o) path nv ≠ .commit t := by
  intro path
  induction path with
  | nil => intro o nv t; simp [updTreeC]
  | cons sg rest ih =>
    intro o nv t
    cases rest with
    | nil =>
      rw [updTreeC_host_single]
      exact offAssign_no_commit o (segKey sg) nv t
    | cons sg2 rest2 =>
      by_cases hc : ∃ c, o = .ctor c
      · obtain ⟨c, rfl⟩ := hc
        simp [updTreeC]
      · have hshape : updTreeC (.host o) (sg :: sg2 :: rest2) nv =
            (match offRead o (segKey sg) with
             | .val u => (updTreeC (.tree u) (sg2 :: rest2) nv).toSame
             | .off o2 => updTreeC (.host o2) (sg2 :: rest2) nv
             | .undefined => .dead
             | .raise => .dead) := by
          cases o
          case ctor c => exact absurd ⟨c, rfl⟩ hc
          all_goals rfl
        rw [hshape]
        rcases offRead o (segKey sg) with u | o2 | - | -
        · exact UpdOut.toSame_ne_commit _ t
        · exact ih o2 nv t
        · simp
        · simp

/-! ## The walk on in-document paths -/

theorem objLookup_mem_any {fs : List (String × JValue)} {k : String} {c : JValue}
    (h : objLookup fs k = some c) : (fs.any fun p => p.1 = k) = true := by
  induction fs with
  | nil => simp [objLookup] at h
  | cons q fs ih =>
    obtain ⟨k0, v0⟩ := q
    by_cases he : k0 = k
    · subst he
      simp
    · simp only [objLookup, if_neg he] at h
      simp [ih h]

theorem objIns_treeAssign {fs : List (String × JValue)} {k : String}
    (hk : ¬ k = "__proto__") (nv : JValue) :
    treeAssign (.obj fs) k nv = .commit (.obj (objIns fs k nv)) := by
  unfold treeAssign objIns
  simp only []
  by_cases hmem : (fs.any fun p => p.1 = k) = true
  · rw [if_pos hmem, if_pos hmem]
  · rw [if_neg hmem, if_neg hmem, if_neg hk]

theorem treeAssign_ok {parent : JValue} {last : Seg} (hfin : finalOk parent last = true)
    (nv : JValue) :
    ∃ parent2, treeAssign parent (segKey last) nv = .commit parent2 ∧
      specAssign parent last nv = some parent2 ∧
      ownGet parent2 last = some nv ∧
      (WFb parent = true → WFb nv = true → WFb parent2 = true) := by
  cases parent with
  | obj fs =>
    have hk : ¬ segKey last = "__proto__" := by
      simpa [finalOk] using hfin
    refine ⟨.obj (objIns fs (segKey last) nv), objIns_treeAssign hk nv, rfl, ?_, ?_⟩
    · show objLookup (objIns fs (segKey last) nv) (segKey last) = some nv
      exact objLookup_objIns_self nv
    · intro hp hv
      simp only [WFb, Bool.and_eq_true] at hp
      obtain ⟨g1, g2, g3⟩ := @objIns_wf fs (segKey last) nv hp.1 hp.2.1 hp.2.2 hv
      simp [WFb, g1, g2, g3]
  | arr es =>
    obtain ⟨i, hi⟩ : ∃ i, segArrIndex last = some i := by
      simpa [finalOk, Option.isSome_iff_exists] using hfin
    have ht : treeAssign (.arr es) (segKey last) nv = .commit (.arr (setIdx es i nv)) := by
      unfold treeAssign
      simp only []
      rw [show keyIdx (segKey last) = some i from hi]
    refine ⟨.arr (setIdx es i nv), ht, ?_, ?_, ?_⟩
    · unfold specAssign
      simp only []
      rw [hi]
    · show ((segArrIndex last).bind fun j => (setIdx es i nv)[j]?) = some nv
      rw [hi]
      simp only [Option.some_bind]
      exact setIdx_get_self es i nv
    · intro hp hv
      have h2 : WFbList es = true := by simpa [WFb] using hp
      simpa [WFb] using WFbList_setIdx h2 hv
  | null => simp [finalOk] at hfin
  | bool b => simp [finalOk] at hfin
  | num n => simp [finalOk] at hfin
  | str s => simp [finalOk] at hfin

theorem updTree_ok : ∀ (ks : List Seg) (root : JValue) (last : Seg) (parent : JValue),
    resolve root ks = some parent → finalOk parent last = true → ∀ nv : JValue,
    ∃ parent2 t, treeAssign parent (segKey last) nv = .commit parent2 ∧
      updTreeC (.tree root) (ks ++ [last]) nv = .commit t ∧
      specSetAtPath root (ks ++ [last]) nv = some t ∧
      resolve t ks = some parent2 ∧
      (WFb root = true → WFb nv = true → WFb t = true) := by
  intro ks
  induction ks with
  | nil =>
    intro root last parent hres hfin nv
    simp only [resolve, Option.some.injEq] at hres
    subst hres
    obtain ⟨p2, ha, hs, hg, hw⟩ := treeAssign_ok hfin nv
    refine ⟨p2, p2, ha, ?_, ?_, rfl, hw⟩
    · rw [List.nil_append, updTreeC_tree_single]
      exact ha
    · show specSetAtPath root [last] nv = some p2
      exact hs
  | cons s ks ih =>
    intro root last parent hres hfin nv
    have hres2 : (ownGet root s).bind (fun c => resolve c ks) = some parent := hres
    obtain ⟨c, hc, hrc⟩ := Option.bind_eq_some.mp hres2
    obtain ⟨p2, t0, ha, hu, hs, hr, hw⟩ := ih c last parent hrc hfin nv
    rcases hks : ks ++ [last] with - | ⟨q, qs⟩
    · exact absurd hks (by simp)
    cases root with
    | obj fs =>
      have hlk : objLookup fs (segKey s) = some c := hc
      have hmem := objLookup_mem_any hlk
      refine ⟨p2, .obj (setKey fs (segKey s) t0), ha, ?_, ?_, ?_, ?_⟩
      · show updTreeC (.tree (.obj fs)) (s :: (ks ++ [last])) nv = _
        rw [hks, updTreeC_obj_own nv hlk, ← hks, hu]
        rfl
      · show specSetAtPath (.obj fs) (s :: (ks ++ [last])) nv = _
        rw [hks]
        show (match ownGet (.obj fs) s with
          | none => none
          | some child =>
            (specSetAtPath child (q :: qs) nv).bind fun c2 => specAssign (.obj fs) s c2) = _
        rw [show ownGet (.obj fs) s = some c from hc]
        simp only []
        rw [← hks, hs]
        simp only [Option.some_bind]
        have hset : objIns fs (segKey s) t0 = setKey fs (segKey s) t0 := by
          unfold objIns
          rw [if_pos hmem]
        show some (JValue.obj (objIns fs (segKey s) t0)) =
          some (JValue.obj (setKey fs (segKey s) t0))
        rw [hset]
      · show (ownGet (.obj (setKey fs (segKey s) t0)) s).bind (fun c2 => resolve c2 ks) = some p2
        rw [show ownGet (.obj (setKey fs (segKey s) t0)) s = some t0 from
          objLookup_setKey_self hmem t0]
        simp only [Option.some_bind]
        exact hr
      · intro hroot hnv
        simp only [WFb, Bool.and_eq_true] at hroot
        have hcw : WFb c = true := WFbFields_lookup hroot.2.2 hlk
        have ht0 : WFb t0 = true := hw hcw hnv
        have g1 : nodupKeys (setKey fs (segKey s) t0) = true := nodupKeys_setKey t0 hroot.1
        have g2 : fOrd ((setKey fs (segKey s) t0).map Prod.fst) = true := by
          rw [setKey_keys]
          exact hroot.2.1
        have g3 : WFbFields (setKey fs (segKey s) t0) = true :=
          WFbFields_setKey hroot.2.2 ht0
        simp [WFb, g1, g2, g3]
    | arr es =>
      obtain ⟨i, hi, hei, hlen⟩ := ownGet_arr_inv hc
      refine ⟨p2, .arr (es.set i t0), ha, ?_, ?_, ?_, ?_⟩
      · show updTreeC (.tree (.arr es)) (s :: (ks ++ [last])) nv = _
        rw [hks, updTreeC_arr_idx nv (show keyIdx (segKey s) = some i from hi) hei, ← hks, hu]
        rfl
      · show specSetAtPath (.arr es) (s :: (ks ++ [last])) nv = _
        rw [hks]
        show (match ownGet (.arr es) s with
          | none => none
          | some child =>
            (specSetAtPath child (q :: qs) nv).bind fun c2 => specAssign (.arr es) s c2) = _
        rw [show ownGet (.arr es) s = some c from hc]
        simp only []
        rw [← hks, hs]
        simp only [Option.some_bind]
        show (match segArrIndex s with
          | some j => some (JValue.arr (setIdx es j t0))
          | none => some (JValue.arr es)) = some (JValue.arr (es.set i t0))
        rw [hi]
        simp only []
        rw [setIdx_lt hlen]
      · show (ownGet (.arr (es.set i t0)) s).bind (fun c2 => resolve c2 ks) = some p2
        rw [show ownGet (.arr (es.set i t0)) s = some t0 by
          show ((segArrIndex s).bind fun j => (es.set i t0)[j]?) = some t0
          rw [hi]
          simp only [Option.some_bind]
          simp [List.getElem?_set, hlen]]
        simp only [Option.some_bind]
        exact hr
      · intro hroot hnv
        have h2 : WFbList es = true := by simpa [WFb] using hroot
        have hcw : WFb c = true := WFbList_mem h2 (List.getElem?_mem hei)
        have ht0 : WFb t0 = true := hw hcw hnv
        simpa [WFb] using WFbList_set h2 ht0
    | null => simp [ownGet] at hc
    | bool b => simp [ownGet] at hc
    | num n => simp [ownGet] at hc
    | str s2 => simp [ownGet] at hc

theorem match_no_commit {r : ReadRes} {sg2 : Seg} {rest2 : List Seg} {nv t : JValue} :
    (match r with
     | .val u => (updTreeC (.tree u) (sg2 :: rest2) nv).toSame
     | .off o => updTreeC (.host o) (sg2 :: rest2) nv
     | .undefined => .dead
     | .raise => .dead) ≠ UpdOut.commit t := by
  rcases r with u | o | - | -
  · exact UpdOut.toSame_ne_commit _ t
  · exact updHost_no_commit _ o nv t
  · simp
  · simp

theorem updTree_commit_inv : ∀ (path : List Seg) (root nv t : JValue),
    updTreeC (.tree root) path nv = .commit t →
    ∃ parent, resolve root path.dropLast = some parent ∧ isContainer parent = true := by
  intro path
  induction path with
  | nil => intro root nv t h; simp [updTreeC] at h
  | cons sg rest ih =>
    intro root nv t h
    cases rest with
    | nil =>
      rw [updTreeC_tree_single] at h
      cases root with
      | obj fs => exact ⟨.obj fs, rfl, rfl⟩
      | arr es => exact ⟨.arr es, rfl, rfl⟩
      | null => simp [treeAssign] at h
      | bool b => simp [treeAssign] at h
      | num n => simp [treeAssign] at h
      | str s => simp [treeAssign] at h
    | cons sg2 rest2 =>
      rw [dropLast_cons2]
      cases root with
      | obj fs =>
        rcases hlk : objLookup fs (segKey sg) with - | u
        · rw [updTreeC_obj_miss nv hlk] at h
          exact absurd h match_no_commit
        · rw [updTreeC_obj_own nv hlk] at h
          obtain ⟨t0, h0, rfl⟩ := UpdOut.lift_commit h
          obtain ⟨parent, hp, hcont⟩ := ih u nv t0 h0
          refine ⟨parent, ?_, hcont⟩
          show (ownGet (.obj fs) sg).bind (fun c => resolve c ((sg2 :: rest2).dropLast)) =
            some parent
          rw [show ownGet (.obj fs) sg = some u from hlk]
          simpa using hp
      | arr es =>
        rcases hi : keyIdx (segKey sg) with - | i
        · rw [updTreeC_arr_nonidx nv hi] at h
          exact absurd h match_no_commit
        · rcases hei : es[i]? with - | u
          · rw [updTreeC_arr_oob nv hi hei] at h
            exact absurd h match_no_commit
          · rw [updTreeC_arr_idx nv hi hei] at h
            obtain ⟨t0, h0, rfl⟩ := UpdOut.lift_commit h
            obtain ⟨parent, hp, hcont⟩ := ih u nv t0 h0
            refine ⟨parent, ?_, hcont⟩
            show (ownGet (.arr es) sg).bind (fun c => resolve c ((sg2 :: rest2).dropLast)) =
              some parent
            rw [show ownGet (.arr es) sg = some u by
              show ((segArrIndex sg).bind fun j => es[j]?) = some u
              rw [show segArrIndex sg = some i from hi]
              simpa using hei]
            simpa using hp
      | null =>
        rw [updTreeC_null] at h
        simp at h
      | bool b =>
        rw [updTreeC_bool] at h
        exact absurd h match_no_commit
      | num n =>
        rw [updTreeC_num] at h
        exact absurd h match_no_commit
      | str s2 =>
        rw [updTreeC_str] at h
        exact absurd h match_no_commit

theorem updTree_dead : ∀ (pre : List Seg) (root c : JValue) (s : Seg) (rest : List Seg),
    rest ≠ [] → resolve root pre = some c →
    jsRead c (segKey s) = .undefined ∨ jsRead c (segKey s) = .raise →
    ∀ nv, updTreeC (.tree root) (pre ++ s :: rest) nv = .dead := by
  intro pre
  induction pre with
  | nil =>
    intro root c s rest hne hres hread nv
    simp only [resolve, Option.some.injEq] at hres
    subst hres
    rcases rest with - | ⟨r1, rs⟩
    · exact absurd rfl hne
    show updTreeC (.tree root) (s :: r1 :: rs) nv = .dead
    cases root with
    | obj fs =>
      rcases hlk : objLookup fs (segKey s) with - | u
      · rw [updTreeC_obj_miss nv hlk]
        rcases hread with hr | hr <;> rw [hr]
      · rw [jsRead_obj_own hlk] at hread
        rcases hread with hr | hr <;> simp at hr
    | arr es =>
      by_cases hlen : segKey s = "length"
      · exfalso
        rcases hread with hr | hr <;>
          · rw [jsRead, if_pos hlen] at hr
            simp at hr
      · rcases hi : keyIdx (segKey s) with - | i
        · rw [updTreeC_arr_nonidx nv hi]
          rcases hread with hr | hr <;> rw [hr]
        · rcases hei : es[i]? with - | u
          · rw [updTreeC_arr_oob nv hi hei]
            rcases hread with hr | hr <;> rw [hr]
          · rw [jsRead_arr_idx hlen hi hei] at hread
            rcases hread with hr | hr <;> simp at hr
    | null => exact updTreeC_null nv
    | bool b =>
      rw [updTreeC_bool]
      rcases hread with hr | hr <;> rw [hr]
    | num n =>
      rw [updTreeC_num]
      rcases hread with hr | hr <;> rw [hr]
    | str s2 =>
      rw [updTreeC_str]
      rcases hread with hr | hr <;> rw [hr]
  | cons s0 pre' ih =>
    intro root c s rest hne hres hread nv
    have hres2 : (ownGet root s0).bind (fun c0 => resolve c0 pre') = some c := hres
    obtain ⟨c0, hc0, hrc⟩ := Option.bind_eq_some.mp hres2
    have hrec := ih c0 c s rest hne hrc hread nv
    show updTreeC (.tree root) (s0 :: (pre' ++ s :: rest)) nv = .dead
    rcases hsh : pre' ++ s :: rest with - | ⟨q, qs⟩
    · exact absurd hsh (by simp)
    rw [hsh] at hrec
    cases root with
    | obj fs =>
      rw [updTreeC_obj_own nv (show objLookup fs (segKey s0) = some c0 from hc0), hrec]
      rfl
    | arr es =>
      obtain ⟨i, hi, hei, hl⟩ := ownGet_arr_inv hc0
      rw [updTreeC_arr_idx nv (show keyIdx (segKey s0) = some i from hi) hei, hrec]
      rfl
    | null => simp [ownGet] at hc0
    | bool b => simp [ownGet] at hc0
    | num n => simp [ownGet] at hc0
    | str s2 => simp [ownGet] at hc0

theorem updTree_same : ∀ (ks : List Seg) (root parent : JValue) (last : Seg),
    resolve root ks = some parent → ∀ nv, treeAssign parent (segKey last) nv = .same →
    updTreeC (.tree root) (ks ++ [last]) nv = .same := by
  intro ks
  induction ks with
  | nil =>
    intro root parent last hres nv ha
    simp only [resolve, Option.some.injEq] at hres
    subst hres
    rw [List.nil_append, updTreeC_tree_single]
    exact ha
  | cons s ks ih =>
    intro root parent last hres nv ha
    have hres2 : (ownGet root s).bind (fun c => resolve c ks) = some parent := hres
    obtain ⟨c, hc, hrc⟩ := Option.bind_eq_some.mp hres2
    have hrec := ih c parent last hrc nv ha
    show updTreeC (.tree root) (s :: (ks ++ [last])) nv = .same
    rcases hks : ks ++ [last] with - | ⟨q, qs⟩
    · exact absurd hks (by simp)
    rw [hks] at hrec
    cases root with
    | obj fs =>
      rw [updTreeC_obj_own nv (show objLookup fs (segKey s) = some c from hc), hrec]
      rfl
    | arr es =>
      obtain ⟨i, hi, hei, hl⟩ := ownGet_arr_inv hc
      rw [updTreeC_arr_idx nv (show keyIdx (segKey s) = some i from hi) hei, hrec]
      rfl
    | null => simp [ownGet] at hc
    | bool b => simp [ownGet] at hc
    | num n => simp [ownGet] at hc
    | str s2 => simp [ownGet] at hc

theorem updTree_wf : ∀ (path : List Seg) (root nv t : JValue), WFb root = true →
    WFb nv = true → updTreeC (.tree root) path nv = .commit t → WFb t = true := by
  intro path
  induction path with
  | nil => intro root nv t _ _ h; simp [updTreeC] at h
  | cons sg rest ih =>
    intro root nv t hroot hnv h
    cases rest with
    | nil =>
      rw [updTreeC_tree_single] at h
      cases root with
      | obj fs =>
        simp only [WFb, Bool.and_eq_true] at hroot
        unfold treeAssign at h
        simp only [] at h
        split_ifs at h with h1 h2
        · simp only [UpdOut.commit.injEq] at h
          subst h
          have g1 : nodupKeys (setKey fs (segKey sg) nv) = true := nodupKeys_setKey nv hroot.1
          have g2 : fOrd ((setKey fs (segKey sg) nv).map Prod.fst) = true := by
            rw [setKey_keys]
            exact hroot.2.1
          have g3 : WFbFields (setKey fs (segKey sg) nv) = true :=
            WFbFields_setKey hroot.2.2 hnv
          simp [WFb, g1, g2, g3]
        · simp only [UpdOut.commit.injEq] at h
          subst h
          have hfresh : ∀ p ∈ fs, p.1 ≠ segKey sg := by
            simp only [List.any_eq_true, decide_eq_true_eq, not_exists, not_and] at h1
            exact h1
          have g1 : nodupKeys (insNew fs (segKey sg) nv) = true :=
            nodupKeys_insNew hfresh hroot.1
          have g2 : fOrd ((insNew fs (segKey sg) nv).map Prod.fst) = true :=
            fOrd_insNew hfresh hroot.2.1
          have g3 : WFbFields (insNew fs (segKey sg) nv) = true :=
            WFbFields_insNew hroot.2.2 hnv
          simp [WFb, g1, g2, g3]
      | arr es =>
        have h2 : WFbList es = true := by simpa [WFb] using hroot
        unfold treeAssign at h
        simp only [] at h
        rcases hi : keyIdx (segKey sg) with - | i <;> rw [hi] at h
        · simp only [] at h
          split_ifs at h with hl
          unfold lenAssign at h
          rcases ht : toLen nv with - | x
          · rw [ht] at h
            simp at h
          · rcases x with - | n
            · rw [ht] at h
              simp at h
            · rw [ht] at h
              simp only [] at h
              simp only [UpdOut.commit.injEq] at h
              subst h
              have hw : WFbList (es.take n ++ List.replicate (n - es.length) JValue.null) = true := by
                rw [WFbList_append]
                simp [WFbList_take n h2, WFbList_replicate_null]
              simpa [WFb] using hw
        · simp only [] at h
          simp only [UpdOut.commit.injEq] at h
          subst h
          simpa [WFb] using WFbList_setIdx h2 hnv
      | null => simp [treeAssign] at h
      | bool b => simp [treeAssign] at h
      | num n => simp [treeAssign] at h
      | str s => simp [treeAssign] at h
    | cons sg2 rest2 =>
      cases root with
      | obj fs =>
        rcases hlk : objLookup fs (segKey sg) with - | u
        · rw [updTreeC_obj_miss nv hlk] at h
          exact absurd h match_no_commit
        · rw [updTreeC_obj_own nv hlk] at h
          obtain ⟨t0, h0, rfl⟩ := UpdOut.lift_commit h
          simp only [WFb, Bool.and_eq_true] at hroot
          have hcw : WFb u = true := WFbFields_lookup hroot.2.2 hlk
          have ht0 : WFb t0 = true := ih u nv t0 hcw hnv h0
          have g1 : nodupKeys (setKey fs (segKey sg) t0) = true := nodupKeys_setKey t0 hroot.1
          have g2 : fOrd ((setKey fs (segKey sg) t0).map Prod.fst) = true := by
            rw [setKey_keys]
            exact hroot.2.1
          have g3 : WFbFields (setKey fs (segKey sg) t0) = true :=
            WFbFields_setKey hroot.2.2 ht0
          simp [WFb, g1, g2, g3]
      | arr es =>
        have h2 : WFbList es = true := by simpa [WFb] using hroot
        rcases hi : keyIdx (segKey sg) with - | i
        · rw [updTreeC_arr_nonidx nv hi] at h
          exact absurd h match_no_commit
        · rcases hei : es[i]? with - | u
          · rw [updTreeC_arr_oob nv hi hei] at h
            exact absurd h match_no_commit
          · rw [updTreeC_arr_idx nv hi hei] at h
            obtain ⟨t0, h0, rfl⟩ := UpdOut.lift_commit h
            have hcw : WFb u = true := WFbList_mem h2 (List.getElem?_mem hei)
            have ht0 : WFb t0 = true := ih u nv t0 hcw hnv h0
            simpa [WFb] using WFbList_set h2 ht0
      | null =>
        rw [updTreeC_null] at h
        simp at h
      | bool b =>
        rw [updTreeC_bool] at h
        exact absurd h match_no_commit
      | num n =>
        rw [updTreeC_num] at h
        exact absurd h match_no_commit
      | str s2 =>
        rw [updTreeC_str] at h
        exact absurd h match_no_commit
/-! ## Blank documents never parse -/

theorem skipWs_cases (cs : List Char) :
    skipWs cs = [] ∨ ∃ c cs', skipWs cs = c :: cs' ∧ c ∈ cs ∧ jsonWs c = false := by
  induction cs with
  | nil => exact .inl rfl
  | cons c cs ih =>
    by_cases hw : jsonWs c = true
    · rw [skipWs, if_pos hw]
      rcases ih with h | ⟨c2, cs2, heq, hm, hnw⟩
      · exact .inl h
      · exact .inr ⟨c2, cs2, heq, List.mem_cons_of_mem c hm, hnw⟩
    · rw [skipWs, if_neg hw]
      exact .inr ⟨c, cs, rfl, List.mem_cons_self c cs, by simpa using hw⟩

theorem blank_char_facts {c : Char} (ht : jsTrimWs c = true) (hw : jsonWs c = false) :
    c ≠ '{' ∧ c ≠ '[' ∧ c ≠ '"' ∧ c ≠ 't' ∧ c ≠ 'f' ∧ c ≠ 'n' ∧ c ≠ '-' ∧
      isDigitCh c = false := by
  refine ⟨?_, ?_, ?_, ?_, ?_, ?_, ?_, ?_⟩
  · rintro rfl; revert ht; decide
  · rintro rfl; revert ht; decide
  · rintro rfl; revert ht; decide
  · rintro rfl; revert ht; decide
  · rintro rfl; revert ht; decide
  · rintro rfl; revert ht; decide
  · rintro rfl; revert ht; decide
  · cases hd : isDigitCh c
    · rfl
    · exfalso
      obtain ⟨h1, h2⟩ := isDigitCh_spec hd
      simp [jsTrimWs] at ht
      omega

theorem parseValue_blank {f : Nat} {cs : List Char} (h : ∀ c ∈ cs, jsTrimWs c = true) :
    parseValue f cs = none := by
  cases f with
  | zero => rfl
  | succ f =>
    rw [parseValue]
    rcases skipWs_cases cs with hsk | ⟨c, cs', hsk, hm, hnw⟩
    · rw [hsk]
    · rw [hsk]
      obtain ⟨h1, h2, h3, h4, h5, h6, h7, h8⟩ := blank_char_facts (h c hm) hnw
      simp only [if_neg h1, if_neg h2, if_neg h3, if_neg h4, if_neg h5, if_neg h6]
      rw [parseNum, if_neg h7]
      unfold parseDigitsNat
      rw [show takeDigits (c :: cs') = ([], c :: cs') by rw [takeDigits, if_neg ?_]; simp [h8]]
      rfl

theorem parseJson_blank {s : String} (h : strBlank s = true) : parseJson s = none := by
  unfold parseJson
  rw [parseValue_blank (by simpa [strBlank, List.all_eq_true] using h)]

theorem strBlank_false_of_parse {s : String} {v : JValue} (h : parseJson s = some v) :
    strBlank s = false := by
  cases hb : strBlank s
  · rfl
  · rw [parseJson_blank hb] at h
    simp at h

/-! ## Path rendering at the character level -/

theorem string_data_append (a b : String) : (a ++ b).data = a.data ++ b.data := rfl

theorem intercalate_go_data (sep : String) (l : List String) :
    ∀ acc : String, (String.intercalate.go acc sep l).data =
      acc.data ++ (l.map fun a => sep.data ++ a.data).flatten := by
  induction l with
  | nil => intro acc; simp [String.intercalate.go]
  | cons a as ih =>
    intro acc
    rw [String.intercalate.go, ih, string_data_append, string_data_append]
    simp

theorem intercalate_data_cons (sep a : String) (as : List String) :
    (String.intercalate sep (a :: as)).data =
      a.data ++ (as.map fun b => sep.data ++ b.data).flatten := by
  rw [String.intercalate, intercalate_go_data]


/-! ## The store write as a step relation -/

theorem guard_false {path : List Seg} {s : String} (hne : path ≠ [])
    (hb : strBlank s = false) : (path.isEmpty || strBlank s) = false := by
  cases path with
  | nil => exact absurd rfl hne
  | cons a l => simp [hb, List.isEmpty]

theorem updateStep_iff {G : Type} (derive : String → G) (st : StoreState G)
    {path : List Seg} (v : JValue) (hne : path ≠ [])
    (hb : strBlank st.json = false) {root : JValue}
    (hp : parseJson st.json = some root) (st' : StoreState G) :
    UpdateStep derive st path v st' ↔
      (match updTree root path v with
       | .commit t => st' = setJson derive (stringify2 t) st
       | .same => st' = setJson derive (stringify2 root) st
       | .dead => st' = st
       | .esc => st' = st ∨ st' = setJson derive (stringify2 root) st) := by
  unfold UpdateStep
  rw [guard_false hne hb, hp]
  exact Iff.rfl

theorem updateStep_guard {G : Type} {derive : String → G} {st st' : StoreState G}
    {path : List Seg} {v : JValue} (hg : (path.isEmpty || strBlank st.json) = true) :
    UpdateStep derive st path v st' ↔ st' = st := by
  unfold UpdateStep
  rw [hg]
  exact Iff.rfl

theorem updateStep_noparse {G : Type} {derive : String → G} {st st' : StoreState G}
    {path : List Seg} {v : JValue} (hne : path ≠ [])
    (hb : strBlank st.json = false) (hp : parseJson st.json = none) :
    UpdateStep derive st path v st' ↔ st' = st := by
  unfold UpdateStep
  rw [guard_false hne hb, hp]
  exact Iff.rfl

theorem updateStep_commit {G : Type} {derive : String → G} {st : StoreState G}
    {path : List Seg} {v root t : JValue} (hne : path ≠ [])
    (hb : strBlank st.json = false) (hp : parseJson st.json = some root)
    (hu : updTree root path v = .commit t) (st' : StoreState G) :
    UpdateStep derive st path v st' ↔ st' = setJson derive (stringify2 t) st := by
  rw [updateStep_iff derive st v hne hb hp st', hu]

theorem updateStep_same_iff {G : Type} {derive : String → G} {st : StoreState G}
    {path : List Seg} {v root : JValue} (hne : path ≠ [])
    (hb : strBlank st.json = false) (hp : parseJson st.json = some root)
    (hu : updTree root path v = .same) (st' : StoreState G) :
    UpdateStep derive st path v st' ↔ st' = setJson derive (stringify2 root) st := by
  rw [updateStep_iff derive st v hne hb hp st', hu]

theorem updateStep_dead_iff {G : Type} {derive : String → G} {st : StoreState G}
    {path : List Seg} {v root : JValue} (hne : path ≠ [])
    (hb : strBlank st.json = false) (hp : parseJson st.json = some root)
    (hu : updTree root path v = .dead) (st' : StoreState G) :
    UpdateStep derive st path v st' ↔ st' = st := by
  rw [updateStep_iff derive st v hne hb hp st', hu]

theorem updateStep_changed {G : Type} {derive : String → G} {st st' : StoreState G}
    {path : List Seg} {v : JValue} (h : UpdateStep derive st path v st') (hne : st' ≠ st) :
    ∃ root, parseJson st.json = some root ∧
      ((∃ t, updTree root path v = .commit t ∧ st' = setJson derive (stringify2 t) st) ∨
       ((updTree root path v = .same ∨ updTree root path v = .esc) ∧
        st' = setJson derive (stringify2 root) st)) := by
  by_cases hg : (path.isEmpty || strBlank st.json) = true
  · exact absurd ((updateStep_guard hg).mp h) hne
  · have hpne : path ≠ [] := by
      intro he
      rw [he] at hg
      simp at hg
    have hb : strBlank st.json = false := by
      rcases hsb : strBlank st.json
      · rfl
      · exact absurd (by simp [hsb]) hg
    rcases hp : parseJson st.json with - | root
    · exact absurd ((updateStep_noparse hpne hb hp).mp h) hne
    · have h2 := (updateStep_iff derive st v hpne hb hp st').mp h
      refine ⟨root, rfl, ?_⟩
      rcases hu : updTree root path v with t | - | - | - <;> rw [hu] at h2
      · exact .inl ⟨t, rfl, h2⟩
      · exact .inr ⟨.inl rfl, h2⟩
      · exact absurd h2 hne
      · rcases h2 with h2 | h2
        · exact absurd h2 hne
        · exact .inr ⟨.inr rfl, h2⟩

theorem storeSave_iff {cur : String} {path : List Seg} (v : JValue) (hne : path ≠ [])
    (hb : strBlank cur = false) {root : JValue}
    (hp : parseJson cur = some root) (out : Option String) :
    StoreSave cur path v out ↔
      (match updTree root path v with
       | .commit t => out = some (stringify2 t)
       | .same => out = some (stringify2 root)
       | .dead => out = none
       | .esc => out = none ∨ out = some (stringify2 root)) := by
  unfold StoreSave
  rw [guard_false hne hb, hp]
  exact Iff.rfl

theorem storeSave_guard {cur : String} {path : List Seg} {v : JValue} {out : Option String}
    (hg : (path.isEmpty || strBlank cur) = true) :
    StoreSave cur path v out ↔ out = none := by
  unfold StoreSave
  rw [hg]
  exact Iff.rfl

theorem storeSave_noparse {cur : String} {path : List Seg} {v : JValue} {out : Option String}
    (hne : path ≠ []) (hb : strBlank cur = false) (hp : parseJson cur = none) :
    StoreSave cur path v out ↔ out = none := by
  unfold StoreSave
  rw [guard_false hne hb, hp]
  exact Iff.rfl

/-! ## The content accumulated from a node's rows -/

theorem stringifyEx_a1 : stringify2 (.obj [("a", .num 1)]) = "\x7b\n  \"a\": 1\n\x7d" := by
  simp [stringify2, sAux, sFields, sField, escBody, escapeChar, indentL, intChars,
    natDigits, natDigitsF, digitChar]

theorem stringifyEx_a2 : stringify2 (.obj [("a", .num 2)]) = "\x7b\n  \"a\": 2\n\x7d" := by
  simp [stringify2, sAux, sFields, sField, escBody, escapeChar, indentL, intChars,
    natDigits, natDigitsF, digitChar]

theorem stringifyEx_ktrue :
    stringify2 (.obj [("k", .bool true)]) = "\x7b\n  \"k\": true\n\x7d" := by
  simp [stringify2, sAux, sFields, sField, escBody, escapeChar, indentL, intChars,
    natDigits, natDigitsF, digitChar]

theorem stringifyEx_b1 : stringify2 (.obj [("b", .num 1)]) = "\x7b\n  \"b\": 1\n\x7d" := by
  simp [stringify2, sAux, sFields, sField, escBody, escapeChar, indentL, intChars,
    natDigits, natDigitsF, digitChar]

theorem stringifyEx_b1p : stringify2 (.obj [("b", .num 1), ("__proto__", .str "x")]) =
    "\x7b\n  \"b\": 1,\n  \"__proto__\": \"x\"\n\x7d" := by
  simp [stringify2, sAux, sFields, sField, escBody, escapeChar, indentL, intChars,
    natDigits, natDigitsF, digitChar]

theorem stringifyEx_anull :
    stringify2 (.obj [("a", .null)]) = "\x7b\n  \"a\": null\n\x7d" := by
  simp [stringify2, sAux, sFields, sField, escBody, escapeChar, indentL, intChars,
    natDigits, natDigitsF, digitChar]

theorem setJson_ne_of_json {G : Type} {derive : String → G} {s : String}
    {st st2 : StoreState G} (h : s ≠ st2.json) : setJson derive s st ≠ st2 := by
  intro heq
  exact h (congrArg StoreState.json heq)

/-! ## The claims -/

/-- C1 (counterexample to the claim as stated): in the document
`{"a": 5}` the path `["a","b"]` satisfies the claim's validity
condition — its only segment before the last, `"a"`, resolves to the
existing value `5` — yet the write leaves the store untouched: the
strict-mode assignment to a property of the primitive `5` throws a
`TypeError` that the catch swallows, so re-reading the path in the
stored document does not yield the new value. -/
theorem claim_C1_counterexample :
    parseJson "\x7b\"a\": 5\x7d" = some (.obj [("a", .num 5)]) ∧
    resolve (.obj [("a", .num 5)]) [Seg.str "a"] = some (.num 5) ∧
    (∀ st' : StoreState String,
      UpdateStep (fun s => s) ⟨"\x7b\"a\": 5\x7d", false, "g"⟩
        [Seg.str "a", Seg.str "b"] .null st' → st' = ⟨"\x7b\"a\": 5\x7d", false, "g"⟩) ∧
    resolve (.obj [("a", .num 5)]) [Seg.str "a", Seg.str "b"] ≠ some .null := by
  refine ⟨rfl, rfl, ?_, ?_⟩
  · intro st' h
    exact (@updateStep_dead_iff String (fun s => s) ⟨"\x7b\"a\": 5\x7d", false, "g"⟩
      [Seg.str "a", Seg.str "b"] JValue.null (JValue.obj [("a", JValue.num 5)])
      (by simp) rfl rfl rfl st').mp h
  · rw [show resolve (.obj [("a", .num 5)]) [Seg.str "a", Seg.str "b"] = none from rfl]
    simp

/-- C1 (amended): write/read round-trip.  For every stored document
that parses, and every non-empty path whose segments before the last
resolve to an existing container, with a final segment that is an
ordinary own key for an object parent (not the inherited `__proto__`
accessor) or an array-index numeral for an array parent, the write
commits exactly one new state — the re-serialized updated tree — and
the stored text parses to a tree in which following the same path
yields the new value.  `WFb v` records that the new value is a
JavaScript value (duplicate-free object keys in enumeration order). -/
theorem claim_C1 {G : Type} (derive : String → G) (st : StoreState G)
    (path : List Seg) (root parent v : JValue) (hne : path ≠ [])
    (hp : parseJson st.json = some root) (hwv : WFb v = true)
    (hres : resolve root path.dropLast = some parent)
    (hfin : finalOk parent (path.getLast hne) = true) :
    ∃ t, (∀ st', UpdateStep derive st path v st' ↔
        st' = setJson derive (stringify2 t) st) ∧
      parseJson (setJson derive (stringify2 t) st).json = some t ∧
      resolve t path = some v := by
  have hb : strBlank st.json = false := strBlank_false_of_parse hp
  obtain ⟨p2, t, ha, hu, hs, hr, hw⟩ :=
    updTree_ok path.dropLast root (path.getLast hne) parent hres hfin v
  have hu' : updTree root path v = .commit t := by
    show updTreeC (.tree root) path v = .commit t
    rw [← List.dropLast_append_getLast hne]
    exact hu
  obtain ⟨p2b, hab, hsb, hgb, hwb⟩ := treeAssign_ok hfin v
  have hpe : p2 = p2b := by
    have h2 := ha.symm.trans hab
    simpa using h2
  refine ⟨t, fun st' => updateStep_commit hne hb hp hu' st', ?_, ?_⟩
  · show parseJson (stringify2 t) = some t
    exact parseJson_stringify2 (hw (parseJson_wf hp) hwv)
  · rw [← List.dropLast_append_getLast hne, resolve_append_one, hr]
    simp only [Option.some_bind]
    rw [hpe]
    exact hgb

/-- Witness for C1 at the document `{"a": 1}`, path `["a"]`, new
value 2. -/
theorem claim_C1_witness :
    ∃ t, (∀ st' : StoreState String,
        UpdateStep (fun s => s) ⟨"\x7b\"a\": 1\x7d", false, "g"⟩ [Seg.str "a"] (.num 2) st' ↔
          st' = setJson (fun s => s) (stringify2 t) ⟨"\x7b\"a\": 1\x7d", false, "g"⟩) ∧
      parseJson (setJson (fun s => s) (stringify2 t)
        (⟨"\x7b\"a\": 1\x7d", false, "g"⟩ : StoreState String)).json = some t ∧
      resolve t [Seg.str "a"] = some (.num 2) :=
  claim_C1 (fun s => s) ⟨"\x7b\"a\": 1\x7d", false, "g"⟩ [Seg.str "a"]
    (.obj [("a", .num 1)]) (.obj [("a", .num 1)]) (.num 2)
    (by simp) rfl (by simp [WFb]) rfl rfl

/-- C2 (counterexample to the claim as stated): in `{"a": 1}` the
intermediate segment `"toString"` of the path `["toString","x"]` does
not resolve to any value of the parsed document, yet the write does
not leave the store as it was: the read `cursor["toString"]` finds the
inherited `Object.prototype.toString` function, the final assignment
lands on an expando property of that function and is swallowed, and
the routine still commits the re-serialized (pretty-printed) clone,
changing the stored text and graph. -/
theorem claim_C2_counterexample :
    parseJson "\x7b\"a\": 1\x7d" = some (.obj [("a", .num 1)]) ∧
    resolve (.obj [("a", .num 1)]) [Seg.str "toString"] = none ∧
    (∀ st' : StoreState String,
      UpdateStep (fun s => s) ⟨"\x7b\"a\": 1\x7d", false, "g"⟩
        [Seg.str "toString", Seg.str "x"] .null st' →
        st' = setJson (fun s => s) (stringify2 (.obj [("a", .num 1)]))
          ⟨"\x7b\"a\": 1\x7d", false, "g"⟩) ∧
    setJson (fun s => s) (stringify2 (.obj [("a", .num 1)]))
        (⟨"\x7b\"a\": 1\x7d", false, "g"⟩ : StoreState String) ≠
      ⟨"\x7b\"a\": 1\x7d", false, "g"⟩ := by
  refine ⟨rfl, rfl, ?_, setJson_ne_of_json (by rw [stringifyEx_a1]; decide)⟩
  intro st' h
  exact (@updateStep_same_iff String (fun s => s) ⟨"\x7b\"a\": 1\x7d", false, "g"⟩
    [Seg.str "toString", Seg.str "x"] JValue.null (JValue.obj [("a", JValue.num 1)])
    (by simp) rfl rfl rfl st').mp h

/-- C2 (amended): invalid-path atomicity holds for paths whose failing
intermediate segment is absent even from the prototype chain (the read
yields `undefined`) or throws (a read on `null`): the walk returns
early, or the catch swallows the throw, before anything is
re-serialized, and the store — json text, loading flag and derived
graph — is exactly as it was.  An intermediate segment that misses the
document but hits an inherited property of the prototype chain escapes
this guarantee (see the counterexample). -/
theorem claim_C2 {G : Type} (derive : String → G) (st : StoreState G)
    (pre : List Seg) (s : Seg) (rest : List Seg) (root c v : JValue)
    (hne : rest ≠ []) (hp : parseJson st.json = some root)
    (hres : resolve root pre = some c)
    (hread : jsRead c (segKey s) = .undefined ∨ jsRead c (segKey s) = .raise) :
    ∀ st', UpdateStep derive st (pre ++ s :: rest) v st' → st' = st := by
  intro st' h
  have hb : strBlank st.json = false := strBlank_false_of_parse hp
  have hu : updTree root (pre ++ s :: rest) v = .dead :=
    updTree_dead pre root c s rest hne hres hread v
  exact (updateStep_dead_iff (by simp) hb hp hu st').mp h

/-- Witness for C2: the path `["x","y"]` in `{"a": 1}` reads
`undefined` at `"x"`; the unchanged state is the only outcome. -/
theorem claim_C2_witness :
    UpdateStep (fun s => s) ⟨"\x7b\"a\": 1\x7d", false, "g"⟩
      [Seg.str "x", Seg.str "y"] .null ⟨"\x7b\"a\": 1\x7d", false, "g"⟩ ∧
    (⟨"\x7b\"a\": 1\x7d", false, "g"⟩ : StoreState String) =
      ⟨"\x7b\"a\": 1\x7d", false, "g"⟩ := by
  have hstep : UpdateStep (fun s => s) ⟨"\x7b\"a\": 1\x7d", false, "g"⟩
      [Seg.str "x", Seg.str "y"] .null ⟨"\x7b\"a\": 1\x7d", false, "g"⟩ :=
    (@updateStep_dead_iff String (fun s => s) ⟨"\x7b\"a\": 1\x7d", false, "g"⟩
      [Seg.str "x", Seg.str "y"] JValue.null (JValue.obj [("a", JValue.num 1)])
      (by simp) rfl rfl rfl ⟨"\x7b\"a\": 1\x7d", false, "g"⟩).mpr rfl
  exact ⟨hstep, claim_C2 (fun s => s) ⟨"\x7b\"a\": 1\x7d", false, "g"⟩ [] (Seg.str "x")
    [Seg.str "y"] (.obj [("a", .num 1)]) (.obj [("a", .num 1)]) .null (by simp) rfl rfl
    (.inl rfl) ⟨"\x7b\"a\": 1\x7d", false, "g"⟩ hstep⟩

/-- C4 (counterexample to the claim as stated): the committed text is
not always the serialization of "assign at the final segment of the
clone".  Writing `"x"` at `["__proto__"]` in `{"b": 1}` triggers the
inherited `Object.prototype.__proto__` setter, which creates no own
member, so the program commits the re-serialized original document,
while the claim's walk-and-assign pipeline produces a document with
the member `"__proto__": "x"` — and the two serializations differ. -/
theorem claim_C4_counterexample :
    parseJson "\x7b\"b\": 1\x7d" = some (.obj [("b", .num 1)]) ∧
    (∀ st' : StoreState String,
      UpdateStep (fun s => s) ⟨"\x7b\"b\": 1\x7d", false, "g"⟩
        [Seg.str "__proto__"] (.str "x") st' →
        st' = setJson (fun s => s) (stringify2 (.obj [("b", .num 1)]))
          ⟨"\x7b\"b\": 1\x7d", false, "g"⟩) ∧
    specSetAtPath (.obj [("b", .num 1)]) [Seg.str "__proto__"] (.str "x") =
      some (.obj [("b", .num 1), ("__proto__", .str "x")]) ∧
    stringify2 (.obj [("b", .num 1), ("__proto__", .str "x")]) ≠
      stringify2 (.obj [("b", .num 1)]) := by
  refine ⟨rfl, ?_, rfl, by rw [stringifyEx_b1p, stringifyEx_b1]; decide⟩
  intro st' h
  exact (@updateStep_same_iff String (fun s => s) ⟨"\x7b\"b\": 1\x7d", false, "g"⟩
    [Seg.str "__proto__"] (JValue.str "x") (JValue.obj [("b", JValue.num 1)])
    (by simp) rfl rfl rfl st').mp h

/-- C4 (amended): the committed pipeline, on paths the document itself
serves.  When every segment before the last resolves through own
document properties to a container and the final segment is an
ordinary own-key or array-index assignment, the committed state is
exactly `setJson` of the indent-2 serialization of the
parse-clone-walk-assign result (`specSetAtPath`), the stored document
is replaced wholesale, and the committed text depends only on the
parsed tree — never on the formatting of the previous document
string. -/
theorem claim_C4 {G : Type} (derive : String → G) (st : StoreState G)
    (path : List Seg) (root parent v : JValue) (hne : path ≠ [])
    (hp : parseJson st.json = some root)
    (hres : resolve root path.dropLast = some parent)
    (hfin : finalOk parent (path.getLast hne) = true) :
    ∃ t, specSetAtPath root path v = some t ∧
      (∀ st', UpdateStep derive st path v st' ↔
        st' = setJson derive (stringify2 t) st) ∧
      ∀ st2 st2' : StoreState G, parseJson st2.json = some root →
        UpdateStep derive st2 path v st2' → st2'.json = stringify2 t := by
  have hb : strBlank st.json = false := strBlank_false_of_parse hp
  obtain ⟨p2, t, ha, hu, hs, hr, hw⟩ :=
    updTree_ok path.dropLast root (path.getLast hne) parent hres hfin v
  have hu' : updTree root path v = .commit t := by
    show updTreeC (.tree root) path v = .commit t
    rw [← List.dropLast_append_getLast hne]
    exact hu
  have hs' : specSetAtPath root path v = some t := by
    rw [← List.dropLast_append_getLast hne]
    exact hs
  refine ⟨t, hs', fun st' => updateStep_commit hne hb hp hu' st', ?_⟩
  intro st2 st2' hp2 h2
  have hb2 : strBlank st2.json = false := strBlank_false_of_parse hp2
  have he := (updateStep_commit hne hb2 hp2 hu' st2').mp h2
  rw [he]
  rfl

/-- Witness for C4: the committed edit at `["a"]` in `{"a": 1}` is the
serialization of the spec pipeline's result, wherever it is committed
from. -/
theorem claim_C4_witness :
    ∃ t, specSetAtPath (.obj [("a", .num 1)]) [Seg.str "a"] (.num 2) = some t ∧
      (∀ st' : StoreState String,
        UpdateStep (fun s => s) ⟨"\x7b\"a\": 1\x7d", false, "g"⟩ [Seg.str "a"] (.num 2) st' ↔
          st' = setJson (fun s => s) (stringify2 t) ⟨"\x7b\"a\": 1\x7d", false, "g"⟩) ∧
      ∀ st2 st2' : StoreState String, parseJson st2.json = some (.obj [("a", .num 1)]) →
        UpdateStep (fun s => s) st2 [Seg.str "a"] (.num 2) st2' → st2'.json = stringify2 t :=
  claim_C4 (fun s => s) ⟨"\x7b\"a\": 1\x7d", false, "g"⟩ [Seg.str "a"]
    (.obj [("a", .num 1)]) (.obj [("a", .num 1)]) (.num 2) (by simp) rfl rfl rfl

/-- Segment rendering as claim C5 words it: a numeric segment is its
bare decimal digits, a string segment is wrapped in double quotes. -/
def claimRender : Seg → List Char
  | .num n => intChars n
  | .str s => '"' :: (s.data ++ ['"'])

theorem renderSeg_data (sg : Seg) : (renderSeg sg).data = claimRender sg := by
  cases sg <;> rfl

theorem bracketShuffle : ∀ (rest : List Seg) (r0 : List Char),
    '[' :: ((r0 ++ ((rest.map fun sg => [']', '['] ++ claimRender sg).flatten)) ++ [']']) =
    ('[' :: (r0 ++ [']'])) ++ (rest.map fun sg => '[' :: (claimRender sg ++ [']'])).flatten := by
  intro rest
  induction rest with
  | nil => intro r0; simp
  | cons sg2 rest ih =>
    intro r0
    have ih2 := ih (claimRender sg2)
    simp only [List.cons_append, List.append_assoc, List.nil_append] at ih2
    injection ih2 with h1 ih3
    simp only [List.map_cons, List.flatten_cons, List.cons_append, List.append_assoc,
      List.nil_append]
    rw [ih3]

/-- C5: path-to-string rendering.  `jsonPathToString` returns `$` for a
missing or empty path, and otherwise `$[s1][s2]...[sn]` where each
numeric segment is rendered as its bare decimal digits and each string
segment is wrapped in double quotes. -/
theorem claim_C5 :
    jsonPathToString none = "$" ∧ jsonPathToString (some []) = "$" ∧
    ∀ segs : List Seg, (jsonPathToString (some segs)).data =
      '$' :: (segs.map fun sg => '[' :: (claimRender sg ++ [']'])).flatten := by
  refine ⟨rfl, rfl, ?_⟩
  intro segs
  cases segs with
  | nil => rfl
  | cons sg rest =>
    show ("$[" ++ String.intercalate "][" ((sg :: rest).map renderSeg) ++ "]").data = _
    rw [string_data_append, string_data_append, List.map_cons, intercalate_data_cons,
      renderSeg_data]
    have hm : ((rest.map renderSeg).map fun b => ("][" : String).data ++ b.data) =
        rest.map fun sg => [']', '['] ++ claimRender sg := by
      rw [List.map_map]
      exact List.map_congr_left fun sg _ => by rw [Function.comp, renderSeg_data]
    rw [hm]
    have hb := bracketShuffle rest (claimRender sg)
    simp only [List.map_cons, List.flatten_cons]
    simp only [List.cons_append, List.append_assoc, List.nil_append] at hb ⊢
    rw [← hb]

/-- C6 (counterexample to the claim as stated): a write whose path
prefix resolves to no container still changes the visible store.  In
`{"k": true}` the prefix `["hasOwnProperty"]` of the path
`["hasOwnProperty","x"]` resolves to nothing in the document, yet the
routine runs to completion — the assignment is swallowed on the
inherited function — and commits the re-serialized clone, changing the
stored text. -/
theorem claim_C6_counterexample :
    parseJson "\x7b\"k\": true\x7d" = some (.obj [("k", .bool true)]) ∧
    resolve (.obj [("k", .bool true)]) [Seg.str "hasOwnProperty"] = none ∧
    (∀ st' : StoreState String,
      UpdateStep (fun s => s) ⟨"\x7b\"k\": true\x7d", false, "g"⟩
        [Seg.str "hasOwnProperty", Seg.str "x"] .null st' →
        st' = setJson (fun s => s) (stringify2 (.obj [("k", .bool true)]))
          ⟨"\x7b\"k\": true\x7d", false, "g"⟩) ∧
    setJson (fun s => s) (stringify2 (.obj [("k", .bool true)]))
        (⟨"\x7b\"k\": true\x7d", false, "g"⟩ : StoreState String) ≠
      ⟨"\x7b\"k\": true\x7d", false, "g"⟩ := by
  refine ⟨rfl, rfl, ?_, setJson_ne_of_json (by rw [stringifyEx_ktrue]; decide)⟩
  intro st' h
  exact (@updateStep_same_iff String (fun s => s) ⟨"\x7b\"k\": true\x7d", false, "g"⟩
    [Seg.str "hasOwnProperty", Seg.str "x"] JValue.null (JValue.obj [("k", JValue.bool true)])
    (by simp) rfl rfl rfl st').mp h

/-- C6 (amended): resolution invariant, restricted to writes that
store new document content.  When the committed text is neither the
old text nor the re-serialized unchanged tree, the path's prefix
resolved to an existing container of the document; and on such
document-served paths no property of the assigned value is consulted:
the walk-and-assign commits for every new value. -/
theorem claim_C6 {G : Type} (derive : String → G) (st : StoreState G)
    (path : List Seg) (v root : JValue) (hp : parseJson st.json = some root) :
    (∀ st', UpdateStep derive st path v st' → st' ≠ st →
      st'.json ≠ stringify2 root →
      ∃ parent, resolve root path.dropLast = some parent ∧ isContainer parent = true) ∧
    (∀ (parent : JValue) (hne : path ≠ []), resolve root path.dropLast = some parent →
      finalOk parent (path.getLast hne) = true →
      ∀ v2, ∃ t2, updTree root path v2 = .commit t2) := by
  constructor
  · intro st' h hne' hnr
    obtain ⟨root2, hp2, hc⟩ := updateStep_changed h hne'
    rw [hp] at hp2
    obtain rfl : root = root2 := by simpa using hp2
    rcases hc with ⟨t, hu, hst⟩ | ⟨hu, hst⟩
    · exact updTree_commit_inv path root v t hu
    · exact absurd (by rw [hst]; rfl) hnr
  · intro parent hne hres hfin v2
    obtain ⟨p2, t2, ha, hu, hs, hr, hw⟩ :=
      updTree_ok path.dropLast root (path.getLast hne) parent hres hfin v2
    refine ⟨t2, ?_⟩
    show updTreeC (.tree root) path v2 = .commit t2
    rw [← List.dropLast_append_getLast hne]
    exact hu

/-- Witness for C6's value-independence on document-served paths:
writing a string at `["k"]` in `{"k": true}` commits. -/
theorem claim_C6_witness :
    ∃ t2, updTree (.obj [("k", .bool true)]) [Seg.str "k"] (.str "w") = .commit t2 :=
  (claim_C6 (fun s => s) (⟨"\x7b\"k\": true\x7d", false, "g"⟩ : StoreState String)
    [Seg.str "k"] .null (.obj [("k", .bool true)]) rfl).2
    (.obj [("k", .bool true)]) (by simp) rfl rfl (.str "w")

/-- C7 (counterexample to the claim as stated): on the blank current
document the two routines disagree — the store's write returns with
the state unchanged (blank text fails its guard), while the modal's
inlined routine substitutes an empty object for the blank document and
saves `{"a": null}`. -/
theorem claim_C7_counterexample :
    (∀ st' : StoreState String,
      UpdateStep (fun s => s) ⟨"", true, "g"⟩ [Seg.str "a"] .null st' →
        st' = ⟨"", true, "g"⟩) ∧
    ModalSave "" [Seg.str "a"] .null (some (stringify2 (.obj [("a", .null)]))) ∧
    stringify2 (.obj [("a", .null)]) = "\x7b\n  \"a\": null\n\x7d" ∧
    ¬ ModalSave "" [Seg.str "a"] .null none ∧
    StoreSave "" [Seg.str "a"] .null none := by
  refine ⟨?_, rfl, stringifyEx_anull, ?_, rfl⟩
  · intro st' h
    exact (@updateStep_guard String (fun s => s) ⟨"", true, "g"⟩ st' [Seg.str "a"]
      JValue.null (by decide)).mp h
  · intro h
    have h2 : (none : Option String) = some (stringify2 (.obj [("a", .null)])) := h
    exact Option.noConfusion h2

/-- C7 (amended): the two duplicated routines agree exactly on
documents that are non-blank after JavaScript trimming.  There the
modal's inlined set-value-at-path and the store's write have the same
document-level outcomes, and every store transition realizes one of
those outcomes: the unchanged state when nothing is saved, or `setJson`
of the saved text. -/
theorem claim_C7 {G : Type} (derive : String → G) (st : StoreState G)
    (path : List Seg) (v : JValue) (hb : strBlank st.json = false) :
    (∀ out, ModalSave st.json path v out ↔ StoreSave st.json path v out) ∧
    (∀ st', UpdateStep derive st path v st' →
      (st' = st ∧ StoreSave st.json path v none) ∨
      ∃ s2, st' = setJson derive s2 st ∧ StoreSave st.json path v (some s2)) := by
  constructor
  · intro out
    unfold ModalSave StoreSave
    rw [hb]
    simp only [Bool.or_false, Bool.false_eq_true, if_false]
  · intro st' h
    by_cases hg : (path.isEmpty || strBlank st.json) = true
    · exact .inl ⟨(updateStep_guard hg).mp h, (storeSave_guard hg).mpr rfl⟩
    · have hpne : path ≠ [] := by
        intro he
        rw [he, hb] at hg
        simp at hg
      rcases hp : parseJson st.json with - | root
      · exact .inl ⟨(updateStep_noparse hpne hb hp).mp h,
          (storeSave_noparse hpne hb hp).mpr rfl⟩
      · have h2 := (updateStep_iff derive st v hpne hb hp st').mp h
        rcases hu : updTree root path v with t | - | - | - <;> rw [hu] at h2
        · exact .inr ⟨stringify2 t, h2, (storeSave_iff v hpne hb hp _).mpr (by rw [hu])⟩
        · exact .inr ⟨stringify2 root, h2, (storeSave_iff v hpne hb hp _).mpr (by rw [hu])⟩
        · exact .inl ⟨h2, (storeSave_iff v hpne hb hp _).mpr (by rw [hu])⟩
        · rcases h2 with h2 | h2
          · exact .inl ⟨h2, (storeSave_iff v hpne hb hp _).mpr (by rw [hu]; exact Or.inl rfl)⟩
          · exact .inr ⟨stringify2 root, h2,
              (storeSave_iff v hpne hb hp _).mpr (by rw [hu]; exact Or.inr rfl)⟩

/-- Witness for C7 on `{"a": 1}`: the modal's routine saves the same
text as the store's write. -/
theorem claim_C7_witness :
    ModalSave "\x7b\"a\": 1\x7d" [Seg.str "a"] (.num 2)
        (some (stringify2 (.obj [("a", .num 2)]))) ↔
      StoreSave "\x7b\"a\": 1\x7d" [Seg.str "a"] (.num 2)
        (some (stringify2 (.obj [("a", .num 2)]))) :=
  (claim_C7 (fun s => s) (⟨"\x7b\"a\": 1\x7d", false, "g"⟩ : StoreState String)
    [Seg.str "a"] (.num 2) rfl).1 (some (stringify2 (.obj [("a", .num 2)])))

/-- C8 (counterexample to the claim as stated): in the document `[1]`
with path `[-1]` every intermediate segment resolves (there are none)
and the parent is a container, the final segment does not exist — yet
the write does not create any slot: the assignment lands on an expando
property that `JSON.stringify` drops, so the committed document is
just the re-serialized original array and the path still reads
nothing. -/
theorem claim_C8_counterexample :
    parseJson "[1]" = some (.arr [.num 1]) ∧
    ownGet (.arr [.num 1]) (Seg.num (-1)) = none ∧
    updTree (.arr [.num 1]) [Seg.num (-1)] (.num 7) = .same ∧
    (∀ st' : StoreState String,
      UpdateStep (fun s => s) ⟨"[1]", false, "g"⟩ [Seg.num (-1)] (.num 7) st' →
        st' = setJson (fun s => s) (stringify2 (.arr [.num 1])) ⟨"[1]", false, "g"⟩) ∧
    resolve (.arr [.num 1]) [Seg.num (-1)] = none := by
  refine ⟨rfl, rfl, rfl, ?_, rfl⟩
  intro st' h
  exact (@updateStep_same_iff String (fun s => s) ⟨"[1]", false, "g"⟩
    [Seg.num (-1)] (JValue.num 7) (JValue.arr [JValue.num 1])
    (by simp) rfl rfl (by rfl) st').mp h

/-- C8 (amended): implicit upsert at the final segment.  When the
intermediate segments resolve to a container parent and the final
segment is an ordinary object key (not the inherited `__proto__`
accessor), or an array-index numeral for an array parent, the write
succeeds even when the final segment does not exist — the key (or
array slot, with skipped slots serialized as null) is created and the
new value is readable there; a final segment outside this range (a
negative index, an inherited name) creates nothing. -/
theorem claim_C8 {G : Type} (derive : String → G) (st : StoreState G)
    (path : List Seg) (root parent v : JValue) (hne : path ≠ [])
    (hp : parseJson st.json = some root) (hwv : WFb v = true)
    (hres : resolve root path.dropLast = some parent)
    (hmiss : ownGet parent (path.getLast hne) = none)
    (hfin : finalOk parent (path.getLast hne) = true) :
    ∃ t, (∀ st', UpdateStep derive st path v st' ↔
        st' = setJson derive (stringify2 t) st) ∧
      parseJson (stringify2 t) = some t ∧ resolve t path = some v := by
  have hb : strBlank st.json = false := strBlank_false_of_parse hp
  obtain ⟨p2, t, ha, hu, hs, hr, hw⟩ :=
    updTree_ok path.dropLast root (path.getLast hne) parent hres hfin v
  have hu' : updTree root path v = .commit t := by
    show updTreeC (.tree root) path v = .commit t
    rw [← List.dropLast_append_getLast hne]
    exact hu
  obtain ⟨p2b, hab, hsb, hgb, hwb⟩ := treeAssign_ok hfin v
  have hpe : p2 = p2b := by
    have h2 := ha.symm.trans hab
    simpa using h2
  refine ⟨t, fun st' => updateStep_commit hne hb hp hu' st', ?_, ?_⟩
  · exact parseJson_stringify2 (hw (parseJson_wf hp) hwv)
  · rw [← List.dropLast_append_getLast hne, resolve_append_one, hr]
    simp only [Option.some_bind]
    rw [hpe]
    exact hgb

/-- Witness for C8: writing at the missing index 3 of `[1]` creates
the slot (with null padding) and the value reads back. -/
theorem claim_C8_witness :
    ∃ t, (∀ st' : StoreState String,
        UpdateStep (fun s => s) ⟨"[1]", false, "g"⟩ [Seg.num 3] (.num 7) st' ↔
          st' = setJson (fun s => s) (stringify2 t) ⟨"[1]", false, "g"⟩) ∧
      parseJson (stringify2 t) = some t ∧ resolve t [Seg.num 3] = some (.num 7) :=
  claim_C8 (fun s => s) ⟨"[1]", false, "g"⟩ [Seg.num 3] (.arr [.num 1]) (.arr [.num 1])
    (.num 7) (by simp) rfl (by simp [WFb]) rfl rfl rfl

/-- C9: formatting normalization.  After every state-changing write,
the stored json text is exactly the 2-space-indented serialization of
its own parse: the whole document is rewritten in canonical
pretty-printed form, whatever formatting the prior text had. -/
theorem claim_C9 {G : Type} (derive : String → G) (st : StoreState G)
    (path : List Seg) (v : JValue) (hwv : WFb v = true)
    (st' : StoreState G) (h : UpdateStep derive st path v st') (hne : st' ≠ st) :
    ∃ t, parseJson st'.json = some t ∧ st'.json = stringify2 t := by
  obtain ⟨root, hp, hc⟩ := updateStep_changed h hne
  have hwr : WFb root = true := parseJson_wf hp
  rcases hc with ⟨t', hu, hst⟩ | ⟨hu, hst⟩
  · have hwt : WFb t' = true := updTree_wf path root v t' hwr hwv hu
    refine ⟨t', ?_, ?_⟩
    · rw [hst]
      show parseJson (stringify2 t') = some t'
      exact parseJson_stringify2 hwt
    · rw [hst]
      rfl
  · refine ⟨root, ?_, ?_⟩
    · rw [hst]
      show parseJson (stringify2 root) = some root
      exact parseJson_stringify2 hwr
    · rw [hst]
      rfl

/-- Witness for C9 at the committed edit of `{"a": 1}`. -/
theorem claim_C9_witness :
    ∃ t, parseJson (setJson (fun s => s) (stringify2 (.obj [("a", .num 2)]))
        (⟨"\x7b\"a\": 1\x7d", false, "g"⟩ : StoreState String)).json = some t ∧
      (setJson (fun s => s) (stringify2 (.obj [("a", .num 2)]))
        (⟨"\x7b\"a\": 1\x7d", false, "g"⟩ : StoreState String)).json = stringify2 t := by
  have hstep : UpdateStep (fun s => s)
      (⟨"\x7b\"a\": 1\x7d", false, "g"⟩ : StoreState String) [Seg.str "a"] (.num 2)
      (setJson (fun s => s) (stringify2 (.obj [("a", .num 2)]))
        ⟨"\x7b\"a\": 1\x7d", false, "g"⟩) :=
    (@updateStep_commit String (fun s => s) ⟨"\x7b\"a\": 1\x7d", false, "g"⟩
      [Seg.str "a"] (.num 2) (.obj [("a", .num 1)]) (.obj [("a", .num 2)])
      (by simp) rfl rfl rfl _).mpr rfl
  exact claim_C9 (fun s => s) ⟨"\x7b\"a\": 1\x7d", false, "g"⟩ [Seg.str "a"] (.num 2)
    (by simp [WFb]) _ hstep (setJson_ne_of_json (by rw [stringifyEx_a2]; decide))

end JsonCrack
